import Mathlib

/-!
Verification of the `block-ciphers` repository: cipher-mode wrappers
(CBC, CFB, CFB-8, OFB, PCBC, IGE, CTR), the GOST 28147-89 (Magma) block
cipher, and the autodetecting AES dispatcher with its AES-NI backend.

Blocks are modelled as natural numbers viewed as bit patterns: the Rust
code manipulates `GenericArray<u8, N>` byte arrays whose only operation
in the mode layer is byte-wise XOR, which coincides with `Nat.xor` on
the numbers the arrays encode.  The underlying block cipher is an
arbitrary function `enc / dec : Nat → Nat`, matching the Rust code which
is generic over any `BlockEncryptMut + BlockCipher` implementation.
CFB-8 manipulates individual bytes of its IV, so there the IV is a list
of bytes and the cipher a function on byte lists.

The file is laid out with all definitions first and all theorems after
them.
-/

set_option maxRecDepth 4000

/-- Process a message one block at a time with a stateful step function,
returning the final state and the list of output blocks.  This is the
single-block path: repeated calls to a mode's
`encrypt_block_inout_mut` / `decrypt_block_inout_mut`. -/
def processBlocks {σ β : Type} (step : σ → β → σ × β) : σ → List β → σ × List β
  | s, [] => (s, [])
  | s, b :: bs =>
    let r := step s b
    let rest := processBlocks step r.1 bs
    (rest.1, r.2 :: rest.2)

/-- Modelled from the spec: `InOutBuf::into_blocks` of the external
`cipher` crate (not under `src/`) splits a byte buffer into whole blocks
of the declared block size plus a trailing partial block of
`len mod blockSize` bytes (spec section 4.5: `full = N / batch_width`
full pieces and a `tail = N % batch_width` remainder). -/
def into_blocks {α : Type} (bs : Nat) (data : List α) :
    List (List α) × List α :=
  if h : data.length < bs ∨ bs = 0 then ([], data)
  else
    let r := into_blocks bs (data.drop bs)
    (data.take bs :: r.1, r.2)
termination_by data.length
decreasing_by
  simp only [List.length_drop]
  omega

/-- Modelled from the spec: the chunk walk of the batched transform
pipeline (`process_chunks` of the external `cipher` crate, not under
`src/`).  Spec section 4.5: the logical block count is partitioned into
full batches of the native batch width `w` followed by a shorter tail,
and the pre/post hook protocol is applied to each piece in order.  A
chunk is never empty; the tail chunk is the remainder when the length is
not a multiple of `w`. -/
def chunked {α : Type} (w : Nat) : List α → List (List α)
  | [] => []
  | x :: xs => (x :: xs.take (w - 1)) :: chunked w (xs.drop (w - 1))
termination_by l => l.length
decreasing_by
  simp only [List.length_drop, List.length_cons]
  omega

/-- Run a per-chunk transform over a chunk list, threading the state and
concatenating the chunk outputs, as the batched pipeline does when it
invokes the mode's pre/post hooks once per chunk. -/
def processChunks {σ β : Type} (f : σ → List β → σ × List β) :
    σ → List (List β) → σ × List β
  | s, [] => (s, [])
  | s, ch :: chs =>
    let r := f s ch
    let rest := processChunks f r.1 chs
    (rest.1, r.2 ++ rest.2)

namespace Cbc

/-- CBC mode encryption step, from `cbc::Encrypt::encrypt_block_inout_mut`:
`t = in ⊕ iv; out = E(t); iv = out`. -/
def encrypt_block_inout_mut (enc : Nat → Nat) (iv p : Nat) : Nat × Nat :=
  let t := p ^^^ iv
  let c := enc t
  (c, c)

/-- CBC mode decryption step, from `cbc::Decrypt::decrypt_block_inout_mut`:
`out = D(in) ⊕ iv; iv = in`. -/
def decrypt_block_inout_mut (dec : Nat → Nat) (iv c : Nat) : Nat × Nat :=
  (c, dec c ^^^ iv)

/-- `IvState::iv_state` for `cbc::Encrypt` and `cbc::Decrypt`: the
stored IV is cloned out. -/
def iv_state (st : Nat) : Nat := st

/-- `InnerIvInit::inner_iv_init` for `cbc::Encrypt` and `cbc::Decrypt`:
the mode state is the given IV. -/
def inner_iv_init (iv : Nat) : Nat := iv

/-- The per-chunk hook installed by
`cbc::Decrypt::decrypt_blocks_with_pre_mut` (embedded from source): the
cipher has decrypted the chunk's input blocks into the temporary area
(`tmp = map D ch`); then `tmp[0] ⊕= iv`, `tmp[i] ⊕= in[i-1]` for
`i ≥ 1`, and `iv = in[n-1]`. -/
def decrypt_chunk (dec : Nat → Nat) (iv : Nat) (ch : List Nat) :
    Nat × List Nat :=
  let tmp := ch.map dec
  (ch.getLastD iv, List.zipWith (fun t c => t ^^^ c) tmp (iv :: ch))

/-- `cbc::Decrypt::decrypt_blocks_with_pre_mut`: the chunked pipeline
walk (spec-modelled `chunked`/`processChunks`) with the mode's per-chunk
hook. -/
def decrypt_blocks_with_pre_mut (dec : Nat → Nat) (w : Nat) (iv : Nat)
    (cs : List Nat) : Nat × List Nat :=
  processChunks (decrypt_chunk dec) iv (chunked w cs)

end Cbc

namespace Pcbc

/-- PCBC mode encryption step, from `pcbc::Encrypt::encrypt_block_inout_mut`:
`t = iv; t ⊕= in; out = E(t); t ⊕= out; iv = t`.  Note that `t` still
holds `iv ⊕ in` when the ciphertext is folded in, so the stored chaining
value is `iv ⊕ in ⊕ out`. -/
def encrypt_block_inout_mut (enc : Nat → Nat) (iv p : Nat) : Nat × Nat :=
  let t := iv ^^^ p
  let c := enc t
  (t ^^^ c, c)

/-- PCBC mode decryption step, from `pcbc::Decrypt::decrypt_block_inout_mut`:
`t = D(in) ⊕ iv; iv = in; out = t; iv ⊕= t`, so the stored chaining value
is `in ⊕ out`. -/
def decrypt_block_inout_mut (dec : Nat → Nat) (iv c : Nat) : Nat × Nat :=
  let t := dec c ^^^ iv
  (c ^^^ t, t)

/-- `IvState::iv_state` for `pcbc::Encrypt` and `pcbc::Decrypt`. -/
def iv_state (st : Nat) : Nat := st

/-- `InnerIvInit::inner_iv_init` for `pcbc::Encrypt` and
`pcbc::Decrypt`. -/
def inner_iv_init (iv : Nat) : Nat := iv

end Pcbc

namespace CfbMode

/-- Full-block CFB encryption step, from
`cfb_mode::CfbCore::encrypt_block_inout_mut`:
`iv = E(iv); iv ⊕= in; out = iv`. -/
def encrypt_block_inout_mut (enc : Nat → Nat) (iv p : Nat) : Nat × Nat :=
  let c := enc iv ^^^ p
  (c, c)

/-- Full-block CFB decryption step, from
`cfb_mode::CfbCore::decrypt_block_inout_mut`:
`t = E(iv) ⊕ in; iv = in; out = t`. -/
def decrypt_block_inout_mut (enc : Nat → Nat) (iv c : Nat) : Nat × Nat :=
  (c, enc iv ^^^ c)

/-- `IvState::iv_state` for `cfb_mode::CfbCore`. -/
def iv_state (st : Nat) : Nat := st

/-- `InnerIvInit::inner_iv_init` for `cfb_mode::CfbCore`. -/
def inner_iv_init (iv : Nat) : Nat := iv

/-- The loop inside the per-chunk hook of
`cfb_mode::CfbCore::decrypt_blocks_with_pre_mut` (embedded from
source).  The cipher has encrypted the chunk's input blocks into the
temporary area (`tmp[i] = E(c_i)`); the running feedback `enc_iv` is
XORed with the input block and swapped with `tmp[i]`, so the output is
`enc_iv ⊕ c_i` and the new feedback is `E(c_i)`. -/
def decrypt_chunks_go (enc : Nat → Nat) : Nat → List Nat → Nat × List Nat
  | e, [] => (e, [])
  | e, c :: cs =>
    let out := e ^^^ c
    let r := decrypt_chunks_go enc (enc c) cs
    (r.1, out :: r.2)

/-- One chunk of `cfb_mode::CfbCore::decrypt_blocks_with_pre_mut`: the
state carries the mode IV and the running `enc_iv` feedback (a local of
the batched call that survives across chunks); after the chunk the mode
IV is the chunk's last input block. -/
def decrypt_chunk (enc : Nat → Nat) (st : Nat × Nat) (ch : List Nat) :
    (Nat × Nat) × List Nat :=
  let r := decrypt_chunks_go enc st.2 ch
  ((ch.getLastD st.1, r.1), r.2)

/-- `cfb_mode::CfbCore::decrypt_blocks_with_pre_mut`: `enc_iv` is
`E(iv)` computed once up front, then the chunked pipeline walk
(spec-modelled `chunked`/`processChunks`) runs the mode's per-chunk
hook; the final mode state is the IV component. -/
def decrypt_blocks_with_pre_mut (enc : Nat → Nat) (w : Nat) (iv : Nat)
    (cs : List Nat) : Nat × List Nat :=
  let r := processChunks (decrypt_chunk enc) (iv, enc iv) (chunked w cs)
  (r.1.1, r.2)

end CfbMode

namespace Ofb

/-- OFB step, from `ofb::Ofb`: both `encrypt_block_inout_mut` and
`decrypt_block_inout_mut` perform `iv = E(iv); out = iv ⊕ in`. -/
def encrypt_block_inout_mut (enc : Nat → Nat) (iv b : Nat) : Nat × Nat :=
  let k := enc iv
  (k, k ^^^ b)

/-- OFB decryption step, from `ofb::Ofb::decrypt_block_inout_mut`; the
body is identical to the encryption step. -/
def decrypt_block_inout_mut (enc : Nat → Nat) (iv b : Nat) : Nat × Nat :=
  let k := enc iv
  (k, k ^^^ b)

/-- `IvState::iv_state` for `ofb::Ofb`. -/
def iv_state (st : Nat) : Nat := st

/-- `InnerIvInit::inner_iv_init` for `ofb::Ofb`. -/
def inner_iv_init (iv : Nat) : Nat := iv

/-- `ofb::Ofb::apply_keystream_blocks` (embedded from source): a plain
loop over the blocks whose body is `iv = E(iv); out = iv ⊕ in` — the
same body as the single-block routine, with no chunking. -/
def apply_keystream_blocks (enc : Nat → Nat) (iv : Nat) (bs : List Nat) :
    Nat × List Nat :=
  processBlocks (fun iv b =>
    let k := enc iv
    (k, k ^^^ b)) iv bs

end Ofb

namespace Ige

/-- IGE encryption step, from `ige::Encrypt::encrypt_block_inout_mut`.
State is the pair `(x, y)`; `t = in ⊕ y; t = E(t); t ⊕= x; out = t;
x = in; y = t`. -/
def encrypt_block_inout_mut (enc : Nat → Nat) (st : Nat × Nat) (p : Nat) :
    (Nat × Nat) × Nat :=
  let t := enc (p ^^^ st.2) ^^^ st.1
  ((p, t), t)

/-- IGE decryption step, from `ige::Decrypt::decrypt_block_inout_mut`:
`t = in ⊕ x; t = D(t); t ⊕= y; out = t; y = in; x = t`. -/
def decrypt_block_inout_mut (dec : Nat → Nat) (st : Nat × Nat) (c : Nat) :
    (Nat × Nat) × Nat :=
  let t := dec (c ^^^ st.1) ^^^ st.2
  ((t, c), t)

/-- `IvState::iv_state` for `ige::Encrypt` and `ige::Decrypt`:
`self.y.clone().concat(self.x.clone())`, i.e. the IV halves are
`(y, x)`. -/
def iv_state (st : Nat × Nat) : Nat × Nat := (st.2, st.1)

/-- `InnerIvInit::inner_iv_init` for `ige::Encrypt` and `ige::Decrypt`:
the IV is split at the block size into `(y, x)`, stored as the state
`(x, y)`. -/
def inner_iv_init (iv : Nat × Nat) : Nat × Nat := (iv.2, iv.1)

end Ige

namespace Cfb8

/-- CFB-8 encryption step, from `cfb8::Cfb8::encrypt_block_inout_mut`.
The IV is a full cipher block (list of bytes); one message byte is
processed: `t = E(iv); r = in ⊕ t[0]; out = r;` then the IV is shifted
left by one byte and `r` is appended. -/
def encrypt_block_inout_mut (enc : List Nat → List Nat) (iv : List Nat)
    (p : Nat) : List Nat × Nat :=
  let t := enc iv
  let r := p ^^^ t.headD 0
  (iv.drop 1 ++ [r], r)

/-- CFB-8 decryption step, from `cfb8::Cfb8::decrypt_block_inout_mut`:
`t = E(iv); r = in; out = r ⊕ t[0];` then the IV is shifted left by one
byte and the ciphertext byte `r` is appended. -/
def decrypt_block_inout_mut (enc : List Nat → List Nat) (iv : List Nat)
    (c : Nat) : List Nat × Nat :=
  let t := enc iv
  (iv.drop 1 ++ [c], c ^^^ t.headD 0)

/-- `cfb8::Cfb8` as `AsyncStreamCipher::encrypt_inout`: the buffer is
split into blocks of the declared block size (`BlockUser::BlockSize =
U1`, i.e. one byte), the trailing partial block is asserted empty
(`assert_eq!(tail.len(), 0)`, modelled as `none` on failure), and each
block is fed to `encrypt_block_inout_mut`. -/
def encrypt_inout (enc : List Nat → List Nat) (iv : List Nat)
    (data : List Nat) : Option (List Nat × List Nat) :=
  let r := into_blocks 1 data
  if r.2.length = 0 then
    some (processBlocks (encrypt_block_inout_mut enc) iv
      (r.1.map (fun b => b.headD 0)))
  else none

/-- `cfb8::Cfb8` as `AsyncStreamCipher::decrypt_inout`; same structure
as `encrypt_inout` with the decryption step. -/
def decrypt_inout (enc : List Nat → List Nat) (iv : List Nat)
    (data : List Nat) : Option (List Nat × List Nat) :=
  let r := into_blocks 1 data
  if r.2.length = 0 then
    some (processBlocks (decrypt_block_inout_mut enc) iv
      (r.1.map (fun b => b.headD 0)))
  else none

/-- `IvState::iv_state` for `cfb8::Cfb8`. -/
def iv_state (st : List Nat) : List Nat := st

/-- `InnerIvInit::inner_iv_init` for `cfb8::Cfb8`. -/
def inner_iv_init (iv : List Nat) : List Nat := iv

end Cfb8

namespace Ctr

/-- One keystream application step of `ctr::CtrCore`, generic over the
counter flavor exactly as the Rust code is generic over `F: CtrFlavor`:
the flavor supplies `generate_block` and `increment`.  The counter block
is generated from the current counter and nonce, encrypted, and XORed
with the message block. -/
def keystream_step {F : Type} (enc : Nat → Nat) (generate_block : F → Nat → Nat)
    (increment : F → F) (st : F × Nat) (b : Nat) : (F × Nat) × Nat :=
  ((increment st.1, st.2), b ^^^ enc (generate_block st.1 st.2))

/-- Modelled from the spec: the concrete counter flavors
(`ctr::flavors::ctr128` and friends) are not under `src/`, only the
`CtrFlavor` trait is.  Spec section 4.6 describes the CTR state as a
counter plus nonce with a per-width wraparound rule, and section 3
requires the state to be exportable and re-importable bit-exact.  The
128-bit flavor fills the whole block: the counter block is the 128-bit
wrapping sum of nonce and counter. -/
def generate_block128 (counter nonce : Nat) : Nat :=
  (nonce + counter) % 2 ^ 128

/-- Modelled from the spec: 128-bit counter increment with
wraparound. -/
def increment128 (counter : Nat) : Nat := (counter + 1) % 2 ^ 128

/-- Modelled from the spec: `load_nonce` reads the nonce back from a
block; for the 128-bit flavor the nonce occupies the whole block. -/
def load_nonce128 (block : Nat) : Nat := block

/-- `InnerIvInit::inner_iv_init` for `ctr::CtrCore` (this function is
under `src/`): `nonce = F::load_nonce(iv)` and the counter starts at its
default, zero.  The state pair is `(counter, nonce)`. -/
def inner_iv_init128 (iv : Nat) : Nat × Nat := (0, load_nonce128 iv)

/-- `IvState::iv_state` for `ctr::CtrCore` (under `src/`):
`self.counter.generate_block(&self.nonce)`. -/
def iv_state128 (st : Nat × Nat) : Nat := generate_block128 st.1 st.2

/-- The pre hook of `ctr::CtrCore::apply_keystream_blocks` (embedded
from source) fills the chunk's temporary area with counter blocks:
`*block = counter.generate_block(nonce); counter.increment()` once per
block. -/
def generate_chunk {F : Type} (generate_block : F → Nat → Nat)
    (increment : F → F) (nonce : Nat) : F → Nat → F × List Nat
  | c, 0 => (c, [])
  | c, k + 1 =>
    let b := generate_block c nonce
    let r := generate_chunk generate_block increment nonce (increment c) k
    (r.1, b :: r.2)

/-- One chunk of `ctr::CtrCore::apply_keystream_blocks`: the pre hook
fills the temporary area with counter blocks and returns `InSrc::Tmp`,
the cipher encrypts the temporary area, and the post hook XORs input and
temporary into the output (`xor_intmp2out`). -/
def apply_chunk {F : Type} (enc : Nat → Nat) (generate_block : F → Nat → Nat)
    (increment : F → F) (st : F × Nat) (ch : List Nat) :
    (F × Nat) × List Nat :=
  let r := generate_chunk generate_block increment st.2 st.1 ch.length
  let ks := r.2.map enc
  ((r.1, st.2), List.zipWith (fun b k => b ^^^ k) ch ks)

/-- `ctr::CtrCore::apply_keystream_blocks`: the chunked pipeline walk
(spec-modelled `chunked`/`processChunks`) with the CTR pre/post
hooks. -/
def apply_keystream_blocks {F : Type} (enc : Nat → Nat)
    (generate_block : F → Nat → Nat) (increment : F → F) (w : Nat)
    (st : F × Nat) (bs : List Nat) : (F × Nat) × List Nat :=
  processChunks (apply_chunk enc generate_block increment) st (chunked w bs)

end Ctr

namespace Autodetect

/-- The payload of the dispatching AES cipher from
`aes/src/autodetect.rs`: the `Inner` union holds either the
hardware-implementation schedule or the soft-implementation schedule.
Reading the field that was not stored is undefined behavior in Rust; it
is modelled as a sum type, with the misread yielding `none` in the
operations below.  `H` and `S` are the schedule types of the two
implementations (which are not bit-compatible with each other). -/
inductive Inner (H S : Type) where
  | intrinsics : H → Inner H S
  | soft : S → Inner H S

/-- A dispatching AES cipher (`Aes128` / `Aes192` / `Aes256` of
`autodetect.rs`, which a single macro generates for the three key
sizes): the selected payload plus the cached capability token. -/
structure AesDispatch (H S : Type) where
  inner : Inner H S
  token : Bool

/-- `KeyInit::new` from `autodetect.rs`: query the cached cpufeatures
token (`aes_intrinsics::init_get()`, whose result is the `aesni_present`
argument here), then derive the key schedule with the selected
implementation and store it together with the token. -/
def new {H S K : Type} (hwNew : K → H) (softNew : K → S)
    (aesni_present : Bool) (key : K) : AesDispatch H S :=
  { inner :=
      if aesni_present then .intrinsics (hwNew key) else .soft (softNew key),
    token := aesni_present }

/-- `Clone` from `autodetect.rs`: read the stored token (`token.get()`,
the cached probe result; the function takes no probe and no key), and
duplicate the stored schedule of the active variant verbatim.  The
token is copied unchanged, so the clone has the same active variant. -/
def clone {H S : Type} (a : AesDispatch H S) : Option (AesDispatch H S) :=
  if a.token then
    match a.inner with
    | .intrinsics s => some { inner := .intrinsics s, token := a.token }
    | .soft _ => none
  else
    match a.inner with
    | .soft s => some { inner := .soft s, token := a.token }
    | .intrinsics _ => none

/-- `BlockEncrypt::encrypt_block_inout` from `autodetect.rs`: dispatch
on the stored token to the active implementation's single-block
routine. -/
def encrypt_block_inout {H S β : Type} (hwEnc : H → β → β)
    (softEnc : S → β → β) (a : AesDispatch H S) (b : β) : Option β :=
  if a.token then
    match a.inner with
    | .intrinsics k => some (hwEnc k b)
    | .soft _ => none
  else
    match a.inner with
    | .soft k => some (softEnc k b)
    | .intrinsics _ => none

/-- `BlockDecrypt::decrypt_block_inout` from `autodetect.rs`. -/
def decrypt_block_inout {H S β : Type} (hwDec : H → β → β)
    (softDec : S → β → β) (a : AesDispatch H S) (b : β) : Option β :=
  if a.token then
    match a.inner with
    | .intrinsics k => some (hwDec k b)
    | .soft _ => none
  else
    match a.inner with
    | .soft k => some (softDec k b)
    | .intrinsics _ => none

end Autodetect

namespace Aes

/-- A 32-bit word as four bytes; `a0` is the lowest-addressed byte
(least significant in the little-endian dword of an XMM register, and
the first byte of a word in the FIPS-197 byte order). -/
structure W4 where
  a0 : Nat
  a1 : Nat
  a2 : Nat
  a3 : Nat
deriving DecidableEq

/-- A 16-byte AES block / XMM register, bytes in memory order.  The AES
state holds byte `b(4*c + r)` at row `r`, column `c`.  Dword `j`
comprises bytes `4*j .. 4*j+3`. -/
structure B16 where
  b0 : Nat
  b1 : Nat
  b2 : Nat
  b3 : Nat
  b4 : Nat
  b5 : Nat
  b6 : Nat
  b7 : Nat
  b8 : Nat
  b9 : Nat
  b10 : Nat
  b11 : Nat
  b12 : Nat
  b13 : Nat
  b14 : Nat
  b15 : Nat
deriving DecidableEq

/-- The all-zero block (`mem::zeroed`). -/
def z16 : B16 := ⟨0, 0, 0, 0, 0, 0, 0, 0, 0, 0, 0, 0, 0, 0, 0, 0⟩

/-- The zero word. -/
def zW : W4 := ⟨0, 0, 0, 0⟩

/-- Dword 0 of a register. -/
def B16.w0 (a : B16) : W4 := ⟨a.b0, a.b1, a.b2, a.b3⟩

/-- Dword 1 of a register. -/
def B16.w1 (a : B16) : W4 := ⟨a.b4, a.b5, a.b6, a.b7⟩

/-- Dword 2 of a register. -/
def B16.w2 (a : B16) : W4 := ⟨a.b8, a.b9, a.b10, a.b11⟩

/-- Dword 3 of a register. -/
def B16.w3 (a : B16) : W4 := ⟨a.b12, a.b13, a.b14, a.b15⟩

/-- Assemble a register from four dwords. -/
def mk4 (x y u v : W4) : B16 :=
  ⟨x.a0, x.a1, x.a2, x.a3, y.a0, y.a1, y.a2, y.a3,
   u.a0, u.a1, u.a2, u.a3, v.a0, v.a1, v.a2, v.a3⟩

/-- Byte-wise XOR of words. -/
def xorW (x y : W4) : W4 :=
  ⟨x.a0 ^^^ y.a0, x.a1 ^^^ y.a1, x.a2 ^^^ y.a2, x.a3 ^^^ y.a3⟩

/-- `_mm_xor_si128`: byte-wise XOR of 16-byte registers. -/
def xor16 (a b : B16) : B16 :=
  ⟨a.b0 ^^^ b.b0, a.b1 ^^^ b.b1, a.b2 ^^^ b.b2, a.b3 ^^^ b.b3,
   a.b4 ^^^ b.b4, a.b5 ^^^ b.b5, a.b6 ^^^ b.b6, a.b7 ^^^ b.b7,
   a.b8 ^^^ b.b8, a.b9 ^^^ b.b9, a.b10 ^^^ b.b10, a.b11 ^^^ b.b11,
   a.b12 ^^^ b.b12, a.b13 ^^^ b.b13, a.b14 ^^^ b.b14, a.b15 ^^^ b.b15⟩

/-- `SubBytes` with an arbitrary byte substitution `s` (the AES S-box in
the real cipher; both implementations use the same one). -/
def subBytes (s : Nat → Nat) (a : B16) : B16 :=
  ⟨s a.b0, s a.b1, s a.b2, s a.b3, s a.b4, s a.b5, s a.b6, s a.b7,
   s a.b8, s a.b9, s a.b10, s a.b11, s a.b12, s a.b13, s a.b14, s a.b15⟩

/-- `ShiftRows`: row `r` of the column-major state rotated left by `r`:
byte `4*c + r` receives byte `4*((c + r) mod 4) + r`. -/
def shiftRows (a : B16) : B16 :=
  ⟨a.b0, a.b5, a.b10, a.b15, a.b4, a.b9, a.b14, a.b3,
   a.b8, a.b13, a.b2, a.b7, a.b12, a.b1, a.b6, a.b11⟩

/-- `InvShiftRows`: row `r` rotated right by `r`. -/
def invShiftRows (a : B16) : B16 :=
  ⟨a.b0, a.b13, a.b10, a.b7, a.b4, a.b1, a.b14, a.b11,
   a.b8, a.b5, a.b2, a.b15, a.b12, a.b9, a.b6, a.b3⟩

/-- `SubWord`: the substitution applied to each byte of a word. -/
def subWord (s : Nat → Nat) (w : W4) : W4 := ⟨s w.a0, s w.a1, s w.a2, s w.a3⟩

/-- `RotWord`: bytes `(a0, a1, a2, a3)` become `(a1, a2, a3, a0)` (a
cyclic byte rotation; on the little-endian dword this is the 8-bit right
rotation the AESKEYGENASSIST instruction performs). -/
def rotWord (w : W4) : W4 := ⟨w.a1, w.a2, w.a3, w.a0⟩

/-- XOR an 8-bit round constant into the first (least significant) byte
of a word. -/
def xorRcon (w : W4) (rcon : Nat) : W4 := ⟨w.a0 ^^^ rcon, w.a1, w.a2, w.a3⟩

/-- `_mm_aeskeygenassist_si128 a rcon` (Intel SDM): with `X1` and `X3`
the input dwords 1 and 3, the result dwords are `SubWord(X1)`,
`RotWord(SubWord(X1)) ⊕ rcon`, `SubWord(X3)`, and
`RotWord(SubWord(X3)) ⊕ rcon`. -/
def aeskeygenassist (s : Nat → Nat) (a : B16) (rcon : Nat) : B16 :=
  mk4 (subWord s a.w1) (xorRcon (rotWord (subWord s a.w1)) rcon)
    (subWord s a.w3) (xorRcon (rotWord (subWord s a.w3)) rcon)

/-- `_mm_shuffle_epi32 a 0x55`: broadcast dword 1. -/
def bcast1 (a : B16) : B16 := mk4 a.w1 a.w1 a.w1 a.w1

/-- `_mm_shuffle_epi32 a 0xaa`: broadcast dword 2. -/
def bcast2 (a : B16) : B16 := mk4 a.w2 a.w2 a.w2 a.w2

/-- `_mm_shuffle_epi32 a 0xff`: broadcast dword 3. -/
def bcast3 (a : B16) : B16 := mk4 a.w3 a.w3 a.w3 a.w3

/-- `_mm_slli_si128 a 4`: shift the whole register left by four bytes
(towards the most significant end), filling with zeroes. -/
def slli4 (a : B16) : B16 := mk4 zW a.w0 a.w1 a.w2

/-- `_mm_shuffle_pd a b 0`: the low 64-bit half of `a` followed by the
low half of `b`. -/
def shufpd0 (a b : B16) : B16 := mk4 a.w0 a.w1 b.w0 b.w1

/-- `_mm_shuffle_pd a b 1`: the high 64-bit half of `a` followed by the
low half of `b`. -/
def shufpd1 (a b : B16) : B16 := mk4 a.w2 a.w3 b.w0 b.w1

/-- `_mm_aesenc_si128` (Intel SDM): `ShiftRows`, `SubBytes`,
`MixColumns`, then XOR with the round key.  `mc` is the MixColumns
transform, kept abstract: both implementations apply the same one. -/
def aesenc (mc : B16 → B16) (s : Nat → Nat) (st k : B16) : B16 :=
  xor16 (mc (subBytes s (shiftRows st))) k

/-- `_mm_aesenclast_si128`: `ShiftRows`, `SubBytes`, XOR round key. -/
def aesenclast (s : Nat → Nat) (st k : B16) : B16 :=
  xor16 (subBytes s (shiftRows st)) k

/-- `_mm_aesdec_si128` (Intel SDM): `InvShiftRows`, `InvSubBytes`,
`InvMixColumns`, then XOR with the round key.  `imc` is the
InvMixColumns transform and `is` the inverse S-box, kept abstract. -/
def aesdec (imc : B16 → B16) (is : Nat → Nat) (st k : B16) : B16 :=
  xor16 (imc (subBytes is (invShiftRows st))) k

/-- `_mm_aesdeclast_si128`: `InvShiftRows`, `InvSubBytes`, XOR round
key. -/
def aesdeclast (is : Nat → Nat) (st k : B16) : B16 :=
  xor16 (subBytes is (invShiftRows st)) k

end Aes

namespace NiAes128

open Aes

/-- The `expand_round!` macro body of `aes/src/ni/aes128.rs`: one
key-schedule-assist round.  `t2` is the broadcast of
`RotWord(SubWord(w3)) ⊕ rcon`; the previous key is XOR-folded with three
4-byte left shifts of itself and then with `t2`. -/
def expand_round (s : Nat → Nat) (prev : B16) (rcon : Nat) : B16 :=
  let t2 := bcast3 (aeskeygenassist s prev rcon)
  let t3 := slli4 prev
  let t1 := xor16 prev t3
  let t3 := slli4 t3
  let t1 := xor16 t1 t3
  let t3 := slli4 t3
  let t1 := xor16 t1 t3
  xor16 t1 t2

/-- `aes128::expand`: eleven encryption round keys from ten assist
rounds with the round constants `0x01 .. 0x36`, and the decryption
round keys, which are the same except that `aesimc` is applied to all
but the first and last. -/
def expand (imc : B16 → B16) (s : Nat → Nat) (key : B16) :
    List B16 × List B16 :=
  let k0 := key
  let k1 := expand_round s k0 0x01
  let k2 := expand_round s k1 0x02
  let k3 := expand_round s k2 0x04
  let k4 := expand_round s k3 0x08
  let k5 := expand_round s k4 0x10
  let k6 := expand_round s k5 0x20
  let k7 := expand_round s k6 0x40
  let k8 := expand_round s k7 0x80
  let k9 := expand_round s k8 0x1B
  let k10 := expand_round s k9 0x36
  ([k0, k1, k2, k3, k4, k5, k6, k7, k8, k9, k10],
   [k0, imc k1, imc k2, imc k3, imc k4, imc k5, imc k6, imc k7, imc k8,
    imc k9, k10])

/-- `aes128::encrypt1`: XOR the first round key, nine `aesenc` rounds,
one `aesenclast`. -/
def encrypt1 (mc : B16 → B16) (s : Nat → Nat) (keys : List B16) (b : B16) :
    B16 :=
  match keys with
  | [k0, k1, k2, k3, k4, k5, k6, k7, k8, k9, k10] =>
    let b := xor16 b k0
    let b := aesenc mc s b k1
    let b := aesenc mc s b k2
    let b := aesenc mc s b k3
    let b := aesenc mc s b k4
    let b := aesenc mc s b k5
    let b := aesenc mc s b k6
    let b := aesenc mc s b k7
    let b := aesenc mc s b k8
    let b := aesenc mc s b k9
    aesenclast s b k10
  | _ => b

/-- `aes128::decrypt1`: XOR the last round key, nine `aesdec` rounds
downwards, one `aesdeclast`. -/
def decrypt1 (imc : B16 → B16) (is : Nat → Nat) (keys : List B16)
    (b : B16) : B16 :=
  match keys with
  | [k0, k1, k2, k3, k4, k5, k6, k7, k8, k9, k10] =>
    let b := xor16 b k10
    let b := aesdec imc is b k9
    let b := aesdec imc is b k8
    let b := aesdec imc is b k7
    let b := aesdec imc is b k6
    let b := aesdec imc is b k5
    let b := aesdec imc is b k4
    let b := aesdec imc is b k3
    let b := aesdec imc is b k2
    let b := aesdec imc is b k1
    aesdeclast is b k0
  | _ => b

end NiAes128

namespace NiAes256

open Aes

/-- First half of the `expand_round!` macro of `aes/src/ni/aes256.rs`:
the next even-position round key from the two preceding keys.  The
assist word is `RotWord(SubWord(w3 of the odd key)) ⊕ rcon` (broadcast
of dword 3), folded into the XOR cascade of the even key. -/
def expand_round_a (s : Nat → Nat) (t1 t3 : B16) (rcon : Nat) : B16 :=
  let t2 := bcast3 (aeskeygenassist s t3 rcon)
  let t4 := slli4 t1
  let t1 := xor16 t1 t4
  let t4 := slli4 t4
  let t1 := xor16 t1 t4
  let t4 := slli4 t4
  let t1 := xor16 t1 t4
  xor16 t1 t2

/-- Second half of the `expand_round!` macro of `aes256.rs`: the next
odd-position round key.  The assist word is `SubWord(w3 of the new even
key)` (dword 2 of `aeskeygenassist` with `rcon = 0`), folded into the
XOR cascade of the odd key. -/
def expand_round_b (s : Nat → Nat) (t1 t3 : B16) : B16 :=
  let t4 := aeskeygenassist s t1 0x00
  let t2 := bcast2 t4
  let t4 := slli4 t3
  let t3 := xor16 t3 t4
  let t4 := slli4 t4
  let t3 := xor16 t3 t4
  let t4 := slli4 t4
  let t3 := xor16 t3 t4
  xor16 t3 t2

/-- `aes256::expand`: the 32-byte key loads as the first two round keys;
six full assist rounds and a final half round produce the fifteen
encryption keys; `aesimc` is applied to all but the first and last for
the decryption keys. -/
def expand (imc : B16 → B16) (s : Nat → Nat) (k0 k1 : B16) :
    List B16 × List B16 :=
  let k2 := expand_round_a s k0 k1 0x01
  let k3 := expand_round_b s k2 k1
  let k4 := expand_round_a s k2 k3 0x02
  let k5 := expand_round_b s k4 k3
  let k6 := expand_round_a s k4 k5 0x04
  let k7 := expand_round_b s k6 k5
  let k8 := expand_round_a s k6 k7 0x08
  let k9 := expand_round_b s k8 k7
  let k10 := expand_round_a s k8 k9 0x10
  let k11 := expand_round_b s k10 k9
  let k12 := expand_round_a s k10 k11 0x20
  let k13 := expand_round_b s k12 k11
  let k14 := expand_round_a s k12 k13 0x40
  ([k0, k1, k2, k3, k4, k5, k6, k7, k8, k9, k10, k11, k12, k13, k14],
   [k0, imc k1, imc k2, imc k3, imc k4, imc k5, imc k6, imc k7, imc k8,
    imc k9, imc k10, imc k11, imc k12, imc k13, k14])

/-- `aes256::encrypt1`: XOR the first round key, thirteen `aesenc`
rounds, one `aesenclast`. -/
def encrypt1 (mc : B16 → B16) (s : Nat → Nat) (keys : List B16) (b : B16) :
    B16 :=
  match keys with
  | [k0, k1, k2, k3, k4, k5, k6, k7, k8, k9, k10, k11, k12, k13, k14] =>
    let b := xor16 b k0
    let b := aesenc mc s b k1
    let b := aesenc mc s b k2
    let b := aesenc mc s b k3
    let b := aesenc mc s b k4
    let b := aesenc mc s b k5
    let b := aesenc mc s b k6
    let b := aesenc mc s b k7
    let b := aesenc mc s b k8
    let b := aesenc mc s b k9
    let b := aesenc mc s b k10
    let b := aesenc mc s b k11
    let b := aesenc mc s b k12
    let b := aesenc mc s b k13
    aesenclast s b k14
  | _ => b

/-- `aes256::decrypt1`: XOR the last round key, thirteen `aesdec` rounds
downwards, one `aesdeclast`. -/
def decrypt1 (imc : B16 → B16) (is : Nat → Nat) (keys : List B16)
    (b : B16) : B16 :=
  match keys with
  | [k0, k1, k2, k3, k4, k5, k6, k7, k8, k9, k10, k11, k12, k13, k14] =>
    let b := xor16 b k14
    let b := aesdec imc is b k13
    let b := aesdec imc is b k12
    let b := aesdec imc is b k11
    let b := aesdec imc is b k10
    let b := aesdec imc is b k9
    let b := aesdec imc is b k8
    let b := aesdec imc is b k7
    let b := aesdec imc is b k6
    let b := aesdec imc is b k5
    let b := aesdec imc is b k4
    let b := aesdec imc is b k3
    let b := aesdec imc is b k2
    let b := aesdec imc is b k1
    aesdeclast is b k0
  | _ => b

end NiAes256

namespace NiAes192

open Aes

/-- The `expand_round!` macro of `aes/src/ni/aes192.rs`: from the last
four generated words (`t1`) and a register whose low two dwords are the
two words after them (`t3`, high dwords are leftovers), produce the next
four words and a register whose low dwords are the two after those.  The
assist word is dword 1 of `aeskeygenassist` of `t3` (broadcast with
shuffle `0x55`), i.e. `RotWord(SubWord(t3.w1)) ⊕ rcon`. -/
def expand_round (s : Nat → Nat) (t1 t3 : B16) (rcon : Nat) : B16 × B16 :=
  let t2 := bcast1 (aeskeygenassist s t3 rcon)
  let t4 := slli4 t1
  let t1 := xor16 t1 t4
  let t4 := slli4 t4
  let t1 := xor16 t1 t4
  let t4 := slli4 t4
  let t1 := xor16 t1 t4
  let t1 := xor16 t1 t2
  let t2 := bcast3 t1
  let t4 := slli4 t3
  let t3 := xor16 t3 t4
  let t3 := xor16 t3 t2
  (t1, t3)

/-- `aes192::expand`: the 24-byte key loads as one full register `k0`
(words 0–3) and a zero-padded register holding words 4 and 5; eight
assist rounds generate the 52 words, regrouped into thirteen round keys
with `_mm_shuffle_pd`; `aesimc` is applied to all but the first and last
for the decryption keys. -/
def expand (imc : B16 → B16) (s : Nat → Nat) (k0 : B16) (w4 w5 : W4) :
    List B16 × List B16 :=
  let k1l := mk4 w4 w5 zW zW
  let r1 := expand_round s k0 k1l 0x01
  let k1 := shufpd0 k1l r1.1
  let k2 := shufpd1 r1.1 r1.2
  let r2 := expand_round s r1.1 r1.2 0x02
  let k3 := r2.1
  let r3 := expand_round s r2.1 r2.2 0x04
  let k4 := shufpd0 r2.2 r3.1
  let k5 := shufpd1 r3.1 r3.2
  let r4 := expand_round s r3.1 r3.2 0x08
  let k6 := r4.1
  let r5 := expand_round s r4.1 r4.2 0x10
  let k7 := shufpd0 r4.2 r5.1
  let k8 := shufpd1 r5.1 r5.2
  let r6 := expand_round s r5.1 r5.2 0x20
  let k9 := r6.1
  let r7 := expand_round s r6.1 r6.2 0x40
  let k10 := shufpd0 r6.2 r7.1
  let k11 := shufpd1 r7.1 r7.2
  let r8 := expand_round s r7.1 r7.2 0x80
  let k12 := r8.1
  ([k0, k1, k2, k3, k4, k5, k6, k7, k8, k9, k10, k11, k12],
   [k0, imc k1, imc k2, imc k3, imc k4, imc k5, imc k6, imc k7, imc k8,
    imc k9, imc k10, imc k11, k12])

/-- `aes192::encrypt1`: XOR the first round key, eleven `aesenc` rounds,
one `aesenclast`. -/
def encrypt1 (mc : B16 → B16) (s : Nat → Nat) (keys : List B16) (b : B16) :
    B16 :=
  match keys with
  | [k0, k1, k2, k3, k4, k5, k6, k7, k8, k9, k10, k11, k12] =>
    let b := xor16 b k0
    let b := aesenc mc s b k1
    let b := aesenc mc s b k2
    let b := aesenc mc s b k3
    let b := aesenc mc s b k4
    let b := aesenc mc s b k5
    let b := aesenc mc s b k6
    let b := aesenc mc s b k7
    let b := aesenc mc s b k8
    let b := aesenc mc s b k9
    let b := aesenc mc s b k10
    let b := aesenc mc s b k11
    aesenclast s b k12
  | _ => b

/-- `aes192::decrypt1`: XOR the last round key, eleven `aesdec` rounds
downwards, one `aesdeclast`. -/
def decrypt1 (imc : B16 → B16) (is : Nat → Nat) (keys : List B16)
    (b : B16) : B16 :=
  match keys with
  | [k0, k1, k2, k3, k4, k5, k6, k7, k8, k9, k10, k11, k12] =>
    let b := xor16 b k12
    let b := aesdec imc is b k11
    let b := aesdec imc is b k10
    let b := aesdec imc is b k9
    let b := aesdec imc is b k8
    let b := aesdec imc is b k7
    let b := aesdec imc is b k6
    let b := aesdec imc is b k5
    let b := aesdec imc is b k4
    let b := aesdec imc is b k3
    let b := aesdec imc is b k2
    let b := aesdec imc is b k1
    aesdeclast is b k0
  | _ => b

end NiAes192

namespace SoftAes

open Aes

/-!
Modelled from the spec: the constant-time fixsliced implementation
(`aes/src/soft/fixslice64.rs`) is not under `src/`; `aes/src/soft.rs`
only declares that it supplies `aes128_key_schedule` /
`aes128_encrypt` / `aes128_decrypt` (and the 192/256 versions).  Spec
section 4.3 states that its public surface mirrors the hardware
implementation of the same cipher in a different internal
representation, so the soft implementation is modelled as the standard
FIPS-197 cipher: the textbook key expansion, and rounds in the textbook
order (`SubBytes`, `ShiftRows`, `MixColumns`, `AddRoundKey`), over the
same abstract S-box and MixColumns components.
-/

/-- XOR-cascade of one round key from the previous one and a source
word, shared by the expansion of every key size: `u_i = prev_i ⊕
u_{i-1}` with `u_{-1} = t`. -/
def next_key_with (t : W4) (prev : B16) : B16 :=
  let u0 := xorW prev.w0 t
  let u1 := xorW prev.w1 u0
  let u2 := xorW prev.w2 u1
  let u3 := xorW prev.w3 u2
  mk4 u0 u1 u2 u3

/-- The FIPS-197 AES-128 key expansion step:
`w_{4i} = w_{4i-4} ⊕ SubWord(RotWord(w_{4i-1})) ⊕ Rcon_i`, the other
three words by XOR with their predecessor. -/
def next_key128 (s : Nat → Nat) (prev : B16) (rcon : Nat) : B16 :=
  next_key_with (xorRcon (subWord s (rotWord prev.w3)) rcon) prev

/-- The FIPS-197 AES-128 key schedule: eleven round keys. -/
def aes128_key_schedule (s : Nat → Nat) (key : B16) : List B16 :=
  let k0 := key
  let k1 := next_key128 s k0 0x01
  let k2 := next_key128 s k1 0x02
  let k3 := next_key128 s k2 0x04
  let k4 := next_key128 s k3 0x08
  let k5 := next_key128 s k4 0x10
  let k6 := next_key128 s k5 0x20
  let k7 := next_key128 s k6 0x40
  let k8 := next_key128 s k7 0x80
  let k9 := next_key128 s k8 0x1B
  let k10 := next_key128 s k9 0x36
  [k0, k1, k2, k3, k4, k5, k6, k7, k8, k9, k10]

/-- One FIPS-197 encryption round: `SubBytes`, `ShiftRows`,
`MixColumns`, `AddRoundKey`. -/
def fips_round (mc : B16 → B16) (s : Nat → Nat) (st k : B16) : B16 :=
  xor16 (mc (shiftRows (subBytes s st))) k

/-- One FIPS-197 decryption (InvCipher) loop round: `InvShiftRows`,
`InvSubBytes`, `AddRoundKey`, `InvMixColumns`. -/
def fips_inv_round (imc : B16 → B16) (is : Nat → Nat) (st k : B16) : B16 :=
  imc (xor16 (subBytes is (invShiftRows st)) k)

/-- The FIPS-197 AES-128 cipher over a given round-key list. -/
def aes128_encrypt_with (mc : B16 → B16) (s : Nat → Nat) (ks : List B16)
    (b : B16) : B16 :=
  match ks with
  | [k0, k1, k2, k3, k4, k5, k6, k7, k8, k9, k10] =>
    let st := xor16 b k0
    let st := fips_round mc s st k1
    let st := fips_round mc s st k2
    let st := fips_round mc s st k3
    let st := fips_round mc s st k4
    let st := fips_round mc s st k5
    let st := fips_round mc s st k6
    let st := fips_round mc s st k7
    let st := fips_round mc s st k8
    let st := fips_round mc s st k9
    aesenclast s st k10
  | _ => b

/-- The FIPS-197 AES-128 InvCipher over a given round-key list. -/
def aes128_decrypt_with (imc : B16 → B16) (is : Nat → Nat) (ks : List B16)
    (b : B16) : B16 :=
  match ks with
  | [k0, k1, k2, k3, k4, k5, k6, k7, k8, k9, k10] =>
    let st := xor16 b k10
    let st := fips_inv_round imc is st k9
    let st := fips_inv_round imc is st k8
    let st := fips_inv_round imc is st k7
    let st := fips_inv_round imc is st k6
    let st := fips_inv_round imc is st k5
    let st := fips_inv_round imc is st k4
    let st := fips_inv_round imc is st k3
    let st := fips_inv_round imc is st k2
    let st := fips_inv_round imc is st k1
    aesdeclast is st k0
  | _ => b

/-- The reference AES-128 encryption of the modelled soft
implementation. -/
def aes128_encrypt (mc : B16 → B16) (s : Nat → Nat) (key b : B16) : B16 :=
  aes128_encrypt_with mc s (aes128_key_schedule s key) b

/-- The reference AES-128 decryption of the modelled soft
implementation. -/
def aes128_decrypt (imc : B16 → B16) (is s : Nat → Nat) (key b : B16) :
    B16 :=
  aes128_decrypt_with imc is (aes128_key_schedule s key) b

/-- One six-word group of the FIPS-197 AES-192 key expansion: from the
previous six words (`q` holding four, then `x0`, `x1`) the next six, the
first by `w_i = w_{i-6} ⊕ SubWord(RotWord(w_{i-1})) ⊕ Rcon` and the rest
by XOR with their predecessor. -/
def next6 (s : Nat → Nat) (q : B16) (x0 x1 : W4) (rcon : Nat) :
    B16 × W4 × W4 :=
  let t := xorRcon (subWord s (rotWord x1)) rcon
  let u := next_key_with t q
  let v0 := xorW x0 u.w3
  let v1 := xorW x1 v0
  (u, v0, v1)

/-- The FIPS-197 AES-192 key schedule: 52 words from eight six-word
groups, regrouped into thirteen round keys.  The 24-byte key is the
block `k0` (words 0–3) plus the words `w4`, `w5`. -/
def aes192_key_schedule (s : Nat → Nat) (k0 : B16) (w4 w5 : W4) :
    List B16 :=
  let r1 := next6 s k0 w4 w5 0x01
  let k1 := mk4 w4 w5 r1.1.w0 r1.1.w1
  let k2 := mk4 r1.1.w2 r1.1.w3 r1.2.1 r1.2.2
  let r2 := next6 s r1.1 r1.2.1 r1.2.2 0x02
  let k3 := r2.1
  let r3 := next6 s r2.1 r2.2.1 r2.2.2 0x04
  let k4 := mk4 r2.2.1 r2.2.2 r3.1.w0 r3.1.w1
  let k5 := mk4 r3.1.w2 r3.1.w3 r3.2.1 r3.2.2
  let r4 := next6 s r3.1 r3.2.1 r3.2.2 0x08
  let k6 := r4.1
  let r5 := next6 s r4.1 r4.2.1 r4.2.2 0x10
  let k7 := mk4 r4.2.1 r4.2.2 r5.1.w0 r5.1.w1
  let k8 := mk4 r5.1.w2 r5.1.w3 r5.2.1 r5.2.2
  let r6 := next6 s r5.1 r5.2.1 r5.2.2 0x20
  let k9 := r6.1
  let r7 := next6 s r6.1 r6.2.1 r6.2.2 0x40
  let k10 := mk4 r6.2.1 r6.2.2 r7.1.w0 r7.1.w1
  let k11 := mk4 r7.1.w2 r7.1.w3 r7.2.1 r7.2.2
  let r8 := next6 s r7.1 r7.2.1 r7.2.2 0x80
  let k12 := r8.1
  [k0, k1, k2, k3, k4, k5, k6, k7, k8, k9, k10, k11, k12]

/-- The FIPS-197 AES-192 cipher over a given round-key list. -/
def aes192_encrypt_with (mc : B16 → B16) (s : Nat → Nat) (ks : List B16)
    (b : B16) : B16 :=
  match ks with
  | [k0, k1, k2, k3, k4, k5, k6, k7, k8, k9, k10, k11, k12] =>
    let st := xor16 b k0
    let st := fips_round mc s st k1
    let st := fips_round mc s st k2
    let st := fips_round mc s st k3
    let st := fips_round mc s st k4
    let st := fips_round mc s st k5
    let st := fips_round mc s st k6
    let st := fips_round mc s st k7
    let st := fips_round mc s st k8
    let st := fips_round mc s st k9
    let st := fips_round mc s st k10
    let st := fips_round mc s st k11
    aesenclast s st k12
  | _ => b

/-- The FIPS-197 AES-192 InvCipher over a given round-key list. -/
def aes192_decrypt_with (imc : B16 → B16) (is : Nat → Nat) (ks : List B16)
    (b : B16) : B16 :=
  match ks with
  | [k0, k1, k2, k3, k4, k5, k6, k7, k8, k9, k10, k11, k12] =>
    let st := xor16 b k12
    let st := fips_inv_round imc is st k11
    let st := fips_inv_round imc is st k10
    let st := fips_inv_round imc is st k9
    let st := fips_inv_round imc is st k8
    let st := fips_inv_round imc is st k7
    let st := fips_inv_round imc is st k6
    let st := fips_inv_round imc is st k5
    let st := fips_inv_round imc is st k4
    let st := fips_inv_round imc is st k3
    let st := fips_inv_round imc is st k2
    let st := fips_inv_round imc is st k1
    aesdeclast is st k0
  | _ => b

/-- The reference AES-192 encryption of the modelled soft
implementation. -/
def aes192_encrypt (mc : B16 → B16) (s : Nat → Nat) (k0 : B16)
    (w4 w5 : W4) (b : B16) : B16 :=
  aes192_encrypt_with mc s (aes192_key_schedule s k0 w4 w5) b

/-- The reference AES-192 decryption of the modelled soft
implementation. -/
def aes192_decrypt (imc : B16 → B16) (is s : Nat → Nat) (k0 : B16)
    (w4 w5 : W4) (b : B16) : B16 :=
  aes192_decrypt_with imc is (aes192_key_schedule s k0 w4 w5) b

/-- The FIPS-197 AES-256 expansion step at a multiple of eight words:
`w_i = w_{i-8} ⊕ SubWord(RotWord(w_{i-1})) ⊕ Rcon`, cascaded. -/
def next_key256_even (s : Nat → Nat) (prevEven prevOdd : B16) (rcon : Nat) :
    B16 :=
  next_key_with (xorRcon (subWord s (rotWord prevOdd.w3)) rcon) prevEven

/-- The FIPS-197 AES-256 expansion step at `i ≡ 4 (mod 8)`:
`w_i = w_{i-8} ⊕ SubWord(w_{i-1})` (no rotation, no round constant),
cascaded. -/
def next_key256_odd (s : Nat → Nat) (newEven prevOdd : B16) : B16 :=
  next_key_with (subWord s newEven.w3) prevOdd

/-- The FIPS-197 AES-256 key schedule: fifteen round keys. -/
def aes256_key_schedule (s : Nat → Nat) (k0 k1 : B16) : List B16 :=
  let k2 := next_key256_even s k0 k1 0x01
  let k3 := next_key256_odd s k2 k1
  let k4 := next_key256_even s k2 k3 0x02
  let k5 := next_key256_odd s k4 k3
  let k6 := next_key256_even s k4 k5 0x04
  let k7 := next_key256_odd s k6 k5
  let k8 := next_key256_even s k6 k7 0x08
  let k9 := next_key256_odd s k8 k7
  let k10 := next_key256_even s k8 k9 0x10
  let k11 := next_key256_odd s k10 k9
  let k12 := next_key256_even s k10 k11 0x20
  let k13 := next_key256_odd s k12 k11
  let k14 := next_key256_even s k12 k13 0x40
  [k0, k1, k2, k3, k4, k5, k6, k7, k8, k9, k10, k11, k12, k13, k14]

/-- The FIPS-197 AES-256 cipher over a given round-key list. -/
def aes256_encrypt_with (mc : B16 → B16) (s : Nat → Nat) (ks : List B16)
    (b : B16) : B16 :=
  match ks with
  | [k0, k1, k2, k3, k4, k5, k6, k7, k8, k9, k10, k11, k12, k13, k14] =>
    let st := xor16 b k0
    let st := fips_round mc s st k1
    let st := fips_round mc s st k2
    let st := fips_round mc s st k3
    let st := fips_round mc s st k4
    let st := fips_round mc s st k5
    let st := fips_round mc s st k6
    let st := fips_round mc s st k7
    let st := fips_round mc s st k8
    let st := fips_round mc s st k9
    let st := fips_round mc s st k10
    let st := fips_round mc s st k11
    let st := fips_round mc s st k12
    let st := fips_round mc s st k13
    aesenclast s st k14
  | _ => b

/-- The FIPS-197 AES-256 InvCipher over a given round-key list. -/
def aes256_decrypt_with (imc : B16 → B16) (is : Nat → Nat) (ks : List B16)
    (b : B16) : B16 :=
  match ks with
  | [k0, k1, k2, k3, k4, k5, k6, k7, k8, k9, k10, k11, k12, k13, k14] =>
    let st := xor16 b k14
    let st := fips_inv_round imc is st k13
    let st := fips_inv_round imc is st k12
    let st := fips_inv_round imc is st k11
    let st := fips_inv_round imc is st k10
    let st := fips_inv_round imc is st k9
    let st := fips_inv_round imc is st k8
    let st := fips_inv_round imc is st k7
    let st := fips_inv_round imc is st k6
    let st := fips_inv_round imc is st k5
    let st := fips_inv_round imc is st k4
    let st := fips_inv_round imc is st k3
    let st := fips_inv_round imc is st k2
    let st := fips_inv_round imc is st k1
    aesdeclast is st k0
  | _ => b

/-- The reference AES-256 encryption of the modelled soft
implementation; the 32-byte key is the two blocks `k0, k1`. -/
def aes256_encrypt (mc : B16 → B16) (s : Nat → Nat) (k0 k1 b : B16) : B16 :=
  aes256_encrypt_with mc s (aes256_key_schedule s k0 k1) b

/-- The reference AES-256 decryption of the modelled soft
implementation. -/
def aes256_decrypt (imc : B16 → B16) (is s : Nat → Nat) (k0 k1 b : B16) :
    B16 :=
  aes256_decrypt_with imc is (aes256_key_schedule s k0 k1) b

end SoftAes

/-- The multi-block path of both AES implementations
(`encrypt_blocks_with_pre` / `decrypt_blocks_with_pre` in `aes/src/ni.rs`
and `aes/src/soft.rs`): the buffer is walked in chunks of the native
batch width (8 for AES-NI, the fixslice width for the soft one), full
chunks through the batch routine and the tail through the single-block
routine.  The chunk walk (`process_chunks`, external `cipher` crate) and
the batch routines (`encrypt8` in the missing `ni/utils.rs`, the
fixsliced batch in the missing `soft/fixslice64.rs`) are modelled from
the spec, sections 4.5 and 4.2: batch routines are bit-identical to the
single-block routine applied to each block. -/
def aes_blocks_with_pre (f : Aes.B16 → Aes.B16) (w : Nat)
    (bs : List Aes.B16) : List Aes.B16 :=
  ((chunked w bs).map (fun ch => ch.map f)).join

/-- The OFB keystream: `IV_n = encrypt(IV_{n-1})`, collected for `n`
steps.  It depends only on the IV and the block count, never on the
message. -/
def ofbKeystream (enc : Nat → Nat) : Nat → Nat → List Nat
  | _, 0 => []
  | iv, n + 1 =>
    let k := enc iv
    k :: ofbKeystream enc k n

namespace Magma

/-- `to_u32` from `magma/src/lib.rs`: big-endian interpretation of a
4-byte chunk. -/
def to_u32 : List Nat → Nat
  | [a, b, c, d] => ((a * 256 + b) * 256 + c) * 256 + d
  | _ => 0

/-- `u32::to_be_bytes`: the four big-endian bytes of a 32-bit value. -/
def to_be_bytes (n : Nat) : List Nat :=
  [n / 16777216 % 256, n / 65536 % 256, n / 256 % 256, n % 256]

/-- `Gost89::new`: split the 32-byte key into eight big-endian 32-bit
words (`chunks_exact(4)` + `to_u32`). -/
def keyWords : List Nat → List Nat
  | a :: b :: c :: d :: rest => to_u32 [a, b, c, d] :: keyWords rest
  | _ => []

/-- One GOST round, the loop body `v = (v.1, v.0 ^ S::g(v.1, key[i]))`
shared by both directions; `g` is the S-box round function the code is
generic over. -/
def round (g : Nat → Nat → Nat) (v : Nat × Nat) (k : Nat) : Nat × Nat :=
  (v.2, v.1 ^^^ g v.2 k)

/-- Read the two big-endian 32-bit halves `(to_u32 b[0..4], to_u32 b[4..8])`
of an 8-byte block, as both `encrypt_block_inout` and
`decrypt_block_inout` do on entry. -/
def fromBlock : List Nat → Nat × Nat
  | [b0, b1, b2, b3, b4, b5, b6, b7] =>
    (to_u32 [b0, b1, b2, b3], to_u32 [b4, b5, b6, b7])
  | _ => (0, 0)

/-- `Gost89::encrypt_block_inout`: 24 forward rounds (the key words
three times in order) followed by 8 rounds with the key words reversed;
the halves are written back swapped, big-endian. -/
def encrypt_block_inout (g : Nat → Nat → Nat) (key : List Nat)
    (block : List Nat) : List Nat :=
  let v := fromBlock block
  let v := ((key ++ key ++ key) ++ key.reverse).foldl (round g) v
  to_be_bytes v.2 ++ to_be_bytes v.1

/-- `Gost89::decrypt_block_inout`: 8 forward rounds followed by 24
rounds with the key words reversed; the halves are written back swapped,
big-endian. -/
def decrypt_block_inout (g : Nat → Nat → Nat) (key : List Nat)
    (block : List Nat) : List Nat :=
  let v := fromBlock block
  let v := (key ++ (key.reverse ++ key.reverse ++ key.reverse)).foldl (round g) v
  to_be_bytes v.2 ++ to_be_bytes v.1

/-- Inverse of one GOST round. -/
def roundInv (g : Nat → Nat → Nat) (v : Nat × Nat) (k : Nat) : Nat × Nat :=
  (v.2 ^^^ g v.1 k, v.1)

/-- The swap of a half pair. -/
def swapPair (v : Nat × Nat) : Nat × Nat := (v.2, v.1)

end Magma

section ModeTheorems

-- Sanity checks on concrete data (identity cipher).
example :
    (processBlocks (Cbc.decrypt_block_inout_mut id) 7
      (processBlocks (Cbc.encrypt_block_inout_mut id) 7 [1, 2, 3]).2).2 =
      [1, 2, 3] := by decide

example :
    (processBlocks (Pcbc.decrypt_block_inout_mut id) 1
      (processBlocks (Pcbc.encrypt_block_inout_mut id) 1 [0, 0]).2).2 =
      [0, 1] := by decide

/-- Round-trip for CBC: decrypting the encryption of any whole-block
message under any block cipher returns the message, and both runs leave
the same IV in the mode state. -/
theorem cbc_roundtrip (enc dec : Nat → Nat) (h : ∀ b, dec (enc b) = b)
    (iv : Nat) (msg : List Nat) :
    processBlocks (Cbc.decrypt_block_inout_mut dec) iv
      (processBlocks (Cbc.encrypt_block_inout_mut enc) iv msg).2 =
    ((processBlocks (Cbc.encrypt_block_inout_mut enc) iv msg).1, msg) := by
  induction msg generalizing iv with
  | nil => rfl
  | cons p ps ih =>
    simp only [processBlocks, Cbc.encrypt_block_inout_mut,
      Cbc.decrypt_block_inout_mut, h, Nat.xor_cancel_right]
    rw [ih]

/-- Round-trip for full-block CFB. -/
theorem cfb_roundtrip (enc : Nat → Nat) (iv : Nat) (msg : List Nat) :
    processBlocks (CfbMode.decrypt_block_inout_mut enc) iv
      (processBlocks (CfbMode.encrypt_block_inout_mut enc) iv msg).2 =
    ((processBlocks (CfbMode.encrypt_block_inout_mut enc) iv msg).1, msg) := by
  induction msg generalizing iv with
  | nil => rfl
  | cons p ps ih =>
    simp only [processBlocks, CfbMode.encrypt_block_inout_mut,
      CfbMode.decrypt_block_inout_mut, Nat.xor_cancel_left]
    rw [ih]

/-- Round-trip for OFB. -/
theorem ofb_roundtrip (enc : Nat → Nat) (iv : Nat) (msg : List Nat) :
    processBlocks (Ofb.decrypt_block_inout_mut enc) iv
      (processBlocks (Ofb.encrypt_block_inout_mut enc) iv msg).2 =
    ((processBlocks (Ofb.encrypt_block_inout_mut enc) iv msg).1, msg) := by
  induction msg generalizing iv with
  | nil => rfl
  | cons p ps ih =>
    simp only [processBlocks, Ofb.encrypt_block_inout_mut,
      Ofb.decrypt_block_inout_mut, Nat.xor_cancel_left]
    rw [ih]

/-- Round-trip for IGE. -/
theorem ige_roundtrip (enc dec : Nat → Nat) (h : ∀ b, dec (enc b) = b)
    (st : Nat × Nat) (msg : List Nat) :
    processBlocks (Ige.decrypt_block_inout_mut dec) st
      (processBlocks (Ige.encrypt_block_inout_mut enc) st msg).2 =
    ((processBlocks (Ige.encrypt_block_inout_mut enc) st msg).1, msg) := by
  induction msg generalizing st with
  | nil => rfl
  | cons p ps ih =>
    simp only [processBlocks, Ige.encrypt_block_inout_mut,
      Ige.decrypt_block_inout_mut, Nat.xor_cancel_right, h]
    rw [ih]

/-- Round-trip for CFB-8 (byte granularity). -/
theorem cfb8_roundtrip (enc : List Nat → List Nat) (iv : List Nat)
    (msg : List Nat) :
    processBlocks (Cfb8.decrypt_block_inout_mut enc) iv
      (processBlocks (Cfb8.encrypt_block_inout_mut enc) iv msg).2 =
    ((processBlocks (Cfb8.encrypt_block_inout_mut enc) iv msg).1, msg) := by
  induction msg generalizing iv with
  | nil => rfl
  | cons p ps ih =>
    simp only [processBlocks, Cfb8.encrypt_block_inout_mut,
      Cfb8.decrypt_block_inout_mut, Nat.xor_cancel_right]
    rw [ih]

/-- Round-trip for CTR, for an arbitrary counter flavor: the keystream
is generated from the counter state only, so applying it twice from the
same state cancels. -/
theorem ctr_roundtrip {F : Type} (enc : Nat → Nat)
    (generate_block : F → Nat → Nat) (increment : F → F)
    (st : F × Nat) (msg : List Nat) :
    processBlocks (Ctr.keystream_step enc generate_block increment) st
      (processBlocks (Ctr.keystream_step enc generate_block increment) st msg).2 =
    ((processBlocks (Ctr.keystream_step enc generate_block increment) st msg).1,
      msg) := by
  induction msg generalizing st with
  | nil => rfl
  | cons p ps ih =>
    simp only [processBlocks, Ctr.keystream_step, Nat.xor_cancel_right]
    rw [ih]

/-- C1.  The spec claims `decrypt(encrypt(message)) == message` for every
mode, every key, every IV and every whole-block message.  PCBC violates
it: with the identity permutation as block cipher, IV `1` and the
two-block message `[0, 0]`, decrypting the encryption yields `[0, 1]`.
The cause is `pcbc::Encrypt::encrypt_block_inout_mut` storing
`iv ⊕ p ⊕ c` as the next chaining value (the temporary `t` is seeded
with the IV and reused), while `pcbc::Decrypt` stores `p ⊕ c`. -/
theorem pcbc_roundtrip_fails :
    (processBlocks (Pcbc.decrypt_block_inout_mut id) 1
      (processBlocks (Pcbc.encrypt_block_inout_mut id) 1 [0, 0]).2).2 ≠
      [0, 0] := by decide

/-- C2.  The spec claims the PCBC chaining value after each block is
`plaintext ⊕ ciphertext` on both paths.  The decryption path satisfies
this, but the encryption path stores `iv ⊕ plaintext ⊕ ciphertext`:
with the identity permutation, IV `1` and plaintext block `0`, the
ciphertext is `1` and the stored chaining value is `0`, yet
`plaintext ⊕ ciphertext = 1`. -/
theorem pcbc_encrypt_chain_differs :
    (Pcbc.encrypt_block_inout_mut id 1 0).1 ≠
      0 ^^^ (Pcbc.encrypt_block_inout_mut id 1 0).2 := by decide

/-- C7.  OFB decryption is the identical function to OFB encryption:
same output block and same successor IV for every cipher, IV and input,
block-wise and message-wise; moreover the keystream is
`IV_n = encrypt(IV_{n-1})`, computed independently of the message (the
final state depends only on the block count) and XORed with the
message. -/
theorem ofb_decrypt_eq_encrypt (enc : Nat → Nat) :
    (∀ iv b, Ofb.decrypt_block_inout_mut enc iv b =
      Ofb.encrypt_block_inout_mut enc iv b) ∧
    (∀ iv msg, processBlocks (Ofb.decrypt_block_inout_mut enc) iv msg =
      processBlocks (Ofb.encrypt_block_inout_mut enc) iv msg) ∧
    (∀ iv msg, processBlocks (Ofb.encrypt_block_inout_mut enc) iv msg =
      (enc^[msg.length] iv,
        List.zipWith (fun k b => k ^^^ b) (ofbKeystream enc iv msg.length) msg)) := by
  refine ⟨fun iv b => rfl, fun iv msg => rfl, fun iv msg => ?_⟩
  induction msg generalizing iv with
  | nil => rfl
  | cons p ps ih =>
    simp only [processBlocks, Ofb.encrypt_block_inout_mut, List.length_cons,
      ofbKeystream, List.zipWith, Function.iterate_succ_apply]
    rw [ih]

/-- C8.  The IGE encryption step computes `out = E(in ⊕ Y) ⊕ X` and then
updates the state to `(X, Y) = (in, out)`; the decryption step mirrors
it with the cipher's decryption routine and the roles of `X` and `Y`
swapped: `out = D(in ⊕ X) ⊕ Y` and then `(Y, X) = (in, out)`. -/
theorem ige_step_spec (enc dec : Nat → Nat) (x y b : Nat) :
    Ige.encrypt_block_inout_mut enc (x, y) b =
      ((b, enc (b ^^^ y) ^^^ x), enc (b ^^^ y) ^^^ x) ∧
    Ige.decrypt_block_inout_mut dec (x, y) b =
      ((dec (b ^^^ x) ^^^ y, b), dec (b ^^^ x) ^^^ y) := by
  exact ⟨rfl, rfl⟩

/-- Every mode processes exactly one output block per input block. -/
theorem processBlocks_length {σ β : Type} (step : σ → β → σ × β) (s : σ)
    (l : List β) : ((processBlocks step s l).2).length = l.length := by
  induction l generalizing s with
  | nil => rfl
  | cons b bs ih => simp [processBlocks, ih]

/-- With a one-byte block size, splitting a buffer into blocks yields
one block per byte and an empty tail, whatever the buffer length. -/
theorem into_blocks_one {α : Type} (data : List α) :
    into_blocks 1 data = (data.map (fun b => [b]), []) := by
  induction data with
  | nil => rw [into_blocks]; simp
  | cons x xs ih => rw [into_blocks]; simp [ih]

/-- C9.  `Cfb8::encrypt_inout` and `Cfb8::decrypt_inout` accept a buffer
of any byte length without error: the declared block size is one byte,
so the internal assertion that the trailing partial block is empty
always holds, and the buffer is processed one byte per block step (the
output has exactly one byte per input byte). -/
theorem cfb8_accepts_any_length (enc : List Nat → List Nat) (iv : List Nat)
    (data : List Nat) :
    Cfb8.encrypt_inout enc iv data =
      some (processBlocks (Cfb8.encrypt_block_inout_mut enc) iv data) ∧
    Cfb8.decrypt_inout enc iv data =
      some (processBlocks (Cfb8.decrypt_block_inout_mut enc) iv data) ∧
    ((processBlocks (Cfb8.encrypt_block_inout_mut enc) iv data).2).length =
      data.length ∧
    ((processBlocks (Cfb8.decrypt_block_inout_mut enc) iv data).2).length =
      data.length := by
  refine ⟨?_, ?_, processBlocks_length _ _ _, processBlocks_length _ _ _⟩
  · simp [Cfb8.encrypt_inout, into_blocks_one, List.map_map, Function.comp_def]
  · simp [Cfb8.decrypt_inout, into_blocks_one, List.map_map, Function.comp_def]

/-- Processing a concatenation is processing the pieces in sequence. -/
theorem processBlocks_append {σ β : Type} (step : σ → β → σ × β) (s : σ)
    (l1 l2 : List β) :
    processBlocks step s (l1 ++ l2) =
      ((processBlocks step (processBlocks step s l1).1 l2).1,
        (processBlocks step s l1).2 ++
          (processBlocks step (processBlocks step s l1).1 l2).2) := by
  induction l1 generalizing s with
  | nil => simp [processBlocks]
  | cons b bs ih => simp [processBlocks, ih]

/-- The generic batch/single equivalence of the pipeline walk: if each
chunk is processed exactly as the single-block routine would process its
blocks in order, then walking the chunked buffer — for any chunk width
and any buffer length — equals the single-block path. -/
theorem processChunks_chunked {σ β : Type} (step : σ → β → σ × β) (w : Nat) :
    ∀ (l : List β) (s : σ),
      processChunks (fun s ch => processBlocks step s ch) s (chunked w l) =
        processBlocks step s l := by
  have H : ∀ (n : Nat) (l : List β), l.length ≤ n → ∀ s,
      processChunks (fun s ch => processBlocks step s ch) s (chunked w l) =
        processBlocks step s l := by
    intro n
    induction n with
    | zero =>
      intro l hl s
      have : l = [] := List.eq_nil_of_length_eq_zero (Nat.le_zero.mp hl)
      subst this
      rw [chunked]
      rfl
    | succ n ih =>
      intro l hl s
      cases l with
      | nil => rw [chunked]; rfl
      | cons x xs =>
        rw [chunked]
        simp only [processChunks]
        rw [ih (xs.drop (w - 1)) (by simp at hl ⊢; omega)]
        conv_rhs =>
          rw [show x :: xs = (x :: xs.take (w - 1)) ++ xs.drop (w - 1) by
            rw [List.cons_append, List.take_append_drop]]
        rw [processBlocks_append]
  exact fun l s => H l.length l le_rfl s

/-- The CBC decryption chunk hook reproduces the single-block path on
the chunk. -/
theorem cbc_decrypt_chunk_eq (dec : Nat → Nat) :
    ∀ (ch : List Nat) (iv : Nat),
      Cbc.decrypt_chunk dec iv ch =
        processBlocks (Cbc.decrypt_block_inout_mut dec) iv ch := by
  intro ch
  induction ch with
  | nil => intro iv; rfl
  | cons c cs ih =>
    intro iv
    have h2 := ih c
    simp only [Cbc.decrypt_chunk] at h2
    simp only [Cbc.decrypt_chunk, processBlocks, Cbc.decrypt_block_inout_mut,
      List.map_cons, List.zipWith_cons_cons, List.getLastD_cons, ← h2]

/-- `cbc::Decrypt`: the batched path equals the single-block path for
every chunk width, every IV and every message. -/
theorem cbc_decrypt_blocks_eq (dec : Nat → Nat) (w iv : Nat)
    (cs : List Nat) :
    Cbc.decrypt_blocks_with_pre_mut dec w iv cs =
      processBlocks (Cbc.decrypt_block_inout_mut dec) iv cs := by
  unfold Cbc.decrypt_blocks_with_pre_mut
  rw [show Cbc.decrypt_chunk dec =
      (fun s ch => processBlocks (Cbc.decrypt_block_inout_mut dec) s ch) from
    funext fun s => funext fun ch => by rw [cbc_decrypt_chunk_eq]]
  exact processChunks_chunked _ w cs iv

/-- The single-block CFB decryption path leaves the chunk's last input
block (or the prior IV) as the mode state. -/
theorem cfb_decrypt_state (enc : Nat → Nat) :
    ∀ (ch : List Nat) (s : Nat),
      (processBlocks (CfbMode.decrypt_block_inout_mut enc) s ch).1 =
        ch.getLastD s := by
  intro ch
  induction ch with
  | nil => intro s; rfl
  | cons c cs ih =>
    intro s
    simp only [processBlocks, CfbMode.decrypt_block_inout_mut,
      List.getLastD_cons, ih c]

/-- The loop of the CFB decryption chunk hook, started with feedback
`E(s)`, produces the single-block outputs from state `s` and ends with
feedback `E(last input)`. -/
theorem cfb_decrypt_chunks_go_eq (enc : Nat → Nat) :
    ∀ (ch : List Nat) (s : Nat),
      CfbMode.decrypt_chunks_go enc (enc s) ch =
        (enc (ch.getLastD s),
          (processBlocks (CfbMode.decrypt_block_inout_mut enc) s ch).2) := by
  intro ch
  induction ch with
  | nil => intro s; rfl
  | cons c cs ih =>
    intro s
    simp only [CfbMode.decrypt_chunks_go, processBlocks,
      CfbMode.decrypt_block_inout_mut, List.getLastD_cons, ih c]

/-- Walking CFB decryption chunks with the carried feedback equal to the
encryption of the mode IV stays in lockstep with the single path. -/
theorem cfb_decrypt_chunks_eq (enc : Nat → Nat) :
    ∀ (chs : List (List Nat)) (s : Nat),
      processChunks (CfbMode.decrypt_chunk enc) (s, enc s) chs =
        (((processChunks (fun s ch =>
            processBlocks (CfbMode.decrypt_block_inout_mut enc) s ch) s chs).1,
          enc (processChunks (fun s ch =>
            processBlocks (CfbMode.decrypt_block_inout_mut enc) s ch) s chs).1),
          (processChunks (fun s ch =>
            processBlocks (CfbMode.decrypt_block_inout_mut enc) s ch) s chs).2) := by
  intro chs
  induction chs with
  | nil => intro s; rfl
  | cons ch chs ih =>
    intro s
    simp only [processChunks, CfbMode.decrypt_chunk,
      cfb_decrypt_chunks_go_eq enc ch s, ← cfb_decrypt_state enc ch s, ih]

/-- `cfb_mode::CfbCore`: the batched decryption path equals the
single-block path for every chunk width, every IV and every message. -/
theorem cfb_decrypt_blocks_eq (enc : Nat → Nat) (w iv : Nat)
    (cs : List Nat) :
    CfbMode.decrypt_blocks_with_pre_mut enc w iv cs =
      processBlocks (CfbMode.decrypt_block_inout_mut enc) iv cs := by
  unfold CfbMode.decrypt_blocks_with_pre_mut
  rw [cfb_decrypt_chunks_eq enc (chunked w cs) iv]
  rw [processChunks_chunked (CfbMode.decrypt_block_inout_mut enc) w cs iv]

/-- The CTR chunk (pre hook generating and incrementing counters for
the whole chunk, cipher call, XOR post hook) equals the single-block
keystream steps on the chunk. -/
theorem ctr_apply_chunk_eq {F : Type} (enc : Nat → Nat)
    (generate_block : F → Nat → Nat) (increment : F → F) :
    ∀ (ch : List Nat) (st : F × Nat),
      Ctr.apply_chunk enc generate_block increment st ch =
        processBlocks (Ctr.keystream_step enc generate_block increment) st ch := by
  intro ch
  induction ch with
  | nil => intro st; rfl
  | cons b bs ih =>
    intro st
    have h2 := ih (increment st.1, st.2)
    simp only [Ctr.apply_chunk] at h2
    simp only [Ctr.apply_chunk, List.length_cons, Ctr.generate_chunk,
      List.map_cons, List.zipWith_cons_cons, processBlocks,
      Ctr.keystream_step, ← h2]

/-- `ctr::CtrCore`: the batched keystream path equals the single-step
path for every chunk width, every state and every message. -/
theorem ctr_apply_keystream_blocks_eq {F : Type} (enc : Nat → Nat)
    (generate_block : F → Nat → Nat) (increment : F → F) (w : Nat)
    (st : F × Nat) (bs : List Nat) :
    Ctr.apply_keystream_blocks enc generate_block increment w st bs =
      processBlocks (Ctr.keystream_step enc generate_block increment) st bs := by
  unfold Ctr.apply_keystream_blocks
  rw [show Ctr.apply_chunk enc generate_block increment =
      (fun s ch =>
        processBlocks (Ctr.keystream_step enc generate_block increment) s ch) from
    funext fun s => funext fun ch => by rw [ctr_apply_chunk_eq]]
  exact processChunks_chunked _ w bs st

/-- C3.  Batch/single equivalence: for every chunk width `w` and every
message whose block count is not a multiple of `w`, the batched paths of
the modes (`cbc::Decrypt::decrypt_blocks_with_pre_mut`,
`cfb_mode::CfbCore::decrypt_blocks_with_pre_mut`,
`ofb::Ofb::apply_keystream_blocks`, and
`ctr::CtrCore::apply_keystream_blocks` over any counter flavor) produce
exactly the same output blocks and the same final mode state as
processing the message one block at a time with the single-block
routine.  (The remaining modes define no batched path: they inherit the
per-block default.) -/
theorem batch_single_equivalence (w : Nat) (hw : 0 < w) :
    (∀ (dec : Nat → Nat) (iv : Nat) (cs : List Nat), cs.length % w ≠ 0 →
      Cbc.decrypt_blocks_with_pre_mut dec w iv cs =
        processBlocks (Cbc.decrypt_block_inout_mut dec) iv cs) ∧
    (∀ (enc : Nat → Nat) (iv : Nat) (cs : List Nat), cs.length % w ≠ 0 →
      CfbMode.decrypt_blocks_with_pre_mut enc w iv cs =
        processBlocks (CfbMode.decrypt_block_inout_mut enc) iv cs) ∧
    (∀ (enc : Nat → Nat) (iv : Nat) (bs : List Nat),
      Ofb.apply_keystream_blocks enc iv bs =
        processBlocks (Ofb.encrypt_block_inout_mut enc) iv bs) ∧
    (∀ (F : Type) (enc : Nat → Nat) (generate_block : F → Nat → Nat)
      (increment : F → F) (st : F × Nat) (bs : List Nat),
      bs.length % w ≠ 0 →
      Ctr.apply_keystream_blocks enc generate_block increment w st bs =
        processBlocks (Ctr.keystream_step enc generate_block increment) st bs) :=
  ⟨fun dec iv cs _ => cbc_decrypt_blocks_eq dec w iv cs,
   fun enc iv cs _ => cfb_decrypt_blocks_eq enc w iv cs,
   fun enc iv bs => rfl,
   fun F enc generate_block increment st bs _ =>
     ctr_apply_keystream_blocks_eq enc generate_block increment w st bs⟩

/-- Witness for C3: width 2, a three-block message (3 is not a multiple
of 2), concrete ciphers and states, each equivalence evaluated. -/
theorem batch_single_equivalence_witness :
    Cbc.decrypt_blocks_with_pre_mut id 2 5 [1, 2, 3] =
      processBlocks (Cbc.decrypt_block_inout_mut id) 5 [1, 2, 3] ∧
    CfbMode.decrypt_blocks_with_pre_mut id 2 5 [1, 2, 3] =
      processBlocks (CfbMode.decrypt_block_inout_mut id) 5 [1, 2, 3] ∧
    Ctr.apply_keystream_blocks id Ctr.generate_block128 Ctr.increment128 2
      (0, 9) [1, 2, 3] =
      processBlocks
        (Ctr.keystream_step id Ctr.generate_block128 Ctr.increment128)
        (0, 9) [1, 2, 3] :=
  ⟨(batch_single_equivalence 2 (by decide)).1 id 5 [1, 2, 3] (by decide),
   (batch_single_equivalence 2 (by decide)).2.1 id 5 [1, 2, 3] (by decide),
   (batch_single_equivalence 2 (by decide)).2.2.2 Nat id Ctr.generate_block128
     Ctr.increment128 (0, 9) [1, 2, 3] (by decide)⟩

/-- C5.  For every dispatching AES cipher built by `KeyInit::new` (for
any probe outcome and any key), `clone` succeeds, preserves the active
implementation variant and duplicates the stored schedule verbatim: the
clone equals the original instance field for field.  The token stored at
construction is exactly the probe outcome and `clone` consumes no probe
and no key (its only input is the instance), so it can neither re-run
the hardware probe nor re-derive the key schedule; no operation of the
embedding returns a modified instance, so the selected variant never
changes after construction.  The statement is generic over the two
schedule types and the key type, exactly as the `define_aes_impl!` macro
is instantiated for `Aes128`, `Aes192` and `Aes256`. -/
theorem aes_dispatch_clone_preserves {H S K : Type} (hwNew : K → H)
    (softNew : K → S) (p : Bool) (key : K) :
    Autodetect.clone (Autodetect.new hwNew softNew p key) =
      some (Autodetect.new hwNew softNew p key) ∧
    (Autodetect.new hwNew softNew p key).token = p := by
  cases p <;> simp [Autodetect.new, Autodetect.clone]

/-- Resuming a 128-bit-flavor CTR keystream from any two states whose
exported counter blocks agree produces the same outputs and states with
the same export, by induction over the remaining message. -/
theorem ctr128_resume_aux (enc : Nat → Nat) (msg : List Nat) :
    ∀ c1 n1 c2 n2 : Nat,
      (n1 + c1) % 2 ^ 128 = (n2 + c2) % 2 ^ 128 →
      (processBlocks
        (Ctr.keystream_step enc Ctr.generate_block128 Ctr.increment128)
        (c1, n1) msg).2 =
      (processBlocks
        (Ctr.keystream_step enc Ctr.generate_block128 Ctr.increment128)
        (c2, n2) msg).2 ∧
      Ctr.iv_state128 ((processBlocks
        (Ctr.keystream_step enc Ctr.generate_block128 Ctr.increment128)
        (c1, n1) msg).1) =
      Ctr.iv_state128 ((processBlocks
        (Ctr.keystream_step enc Ctr.generate_block128 Ctr.increment128)
        (c2, n2) msg).1) := by
  induction msg with
  | nil =>
    intro c1 n1 c2 n2 h
    exact ⟨rfl, by simpa [Ctr.iv_state128, Ctr.generate_block128] using h⟩
  | cons b bs ih =>
    intro c1 n1 c2 n2 h
    have hgen : Ctr.generate_block128 c1 n1 = Ctr.generate_block128 c2 n2 := h
    have hnext : (n1 + Ctr.increment128 c1) % 2 ^ 128 =
        (n2 + Ctr.increment128 c2) % 2 ^ 128 := by
      unfold Ctr.increment128
      rw [Nat.add_mod_mod, Nat.add_mod_mod, ← Nat.add_assoc, ← Nat.add_assoc,
        ← Nat.mod_add_mod, ← Nat.mod_add_mod (n2 + c2), h]
    have hrest := ih (Ctr.increment128 c1) n1 (Ctr.increment128 c2) n2 hnext
    simp only [processBlocks, Ctr.keystream_step, hgen]
    exact ⟨by rw [hrest.1], hrest.2⟩

/-- C6.  IV-state round trip for every mode exposing `iv_state`:
re-initialising a fresh mode instance (with the same cipher) from the
exported `iv_state` of any reachable state (in particular a mid-stream
state after any prefix of the message) and processing the rest of the
message gives the same output blocks and a final state with the same
export as continuing the original instance.  For the block modes the
reconstructed state is literally the original state, so the statement
quantifies over an arbitrary step function, covering both the
encryption and the decryption direction; for CTR (with the 128-bit
flavor) re-initialisation folds the counter into the nonce and restarts
the counter at zero, which yields the identical keystream. -/
theorem iv_state_roundtrip :
    (∀ (step : Nat → Nat → Nat × Nat) (s : Nat) (msg : List Nat),
      processBlocks step (Cbc.inner_iv_init (Cbc.iv_state s)) msg =
        processBlocks step s msg) ∧
    (∀ (step : Nat → Nat → Nat × Nat) (s : Nat) (msg : List Nat),
      processBlocks step (Pcbc.inner_iv_init (Pcbc.iv_state s)) msg =
        processBlocks step s msg) ∧
    (∀ (step : Nat → Nat → Nat × Nat) (s : Nat) (msg : List Nat),
      processBlocks step (CfbMode.inner_iv_init (CfbMode.iv_state s)) msg =
        processBlocks step s msg) ∧
    (∀ (step : Nat → Nat → Nat × Nat) (s : Nat) (msg : List Nat),
      processBlocks step (Ofb.inner_iv_init (Ofb.iv_state s)) msg =
        processBlocks step s msg) ∧
    (∀ (step : List Nat → Nat → List Nat × Nat) (s : List Nat) (msg : List Nat),
      processBlocks step (Cfb8.inner_iv_init (Cfb8.iv_state s)) msg =
        processBlocks step s msg) ∧
    (∀ (step : Nat × Nat → Nat → (Nat × Nat) × Nat) (s : Nat × Nat)
      (msg : List Nat),
      processBlocks step (Ige.inner_iv_init (Ige.iv_state s)) msg =
        processBlocks step s msg) ∧
    (∀ (enc : Nat → Nat) (s : Nat × Nat) (msg : List Nat),
      (processBlocks
        (Ctr.keystream_step enc Ctr.generate_block128 Ctr.increment128)
        (Ctr.inner_iv_init128 (Ctr.iv_state128 s)) msg).2 =
      (processBlocks
        (Ctr.keystream_step enc Ctr.generate_block128 Ctr.increment128)
        s msg).2 ∧
      Ctr.iv_state128 ((processBlocks
        (Ctr.keystream_step enc Ctr.generate_block128 Ctr.increment128)
        (Ctr.inner_iv_init128 (Ctr.iv_state128 s)) msg).1) =
      Ctr.iv_state128 ((processBlocks
        (Ctr.keystream_step enc Ctr.generate_block128 Ctr.increment128)
        s msg).1)) := by
  refine ⟨fun step s msg => rfl, fun step s msg => rfl, fun step s msg => rfl,
    fun step s msg => rfl, fun step s msg => rfl, fun step s msg => rfl,
    fun enc s msg => ?_⟩
  have h : (Ctr.load_nonce128 (Ctr.iv_state128 s) + 0) % 2 ^ 128 =
      (s.2 + s.1) % 2 ^ 128 := by
    simp [Ctr.load_nonce128, Ctr.iv_state128, Ctr.generate_block128]
  exact ctr128_resume_aux enc msg 0 (Ctr.load_nonce128 (Ctr.iv_state128 s))
    s.1 s.2 h

end ModeTheorems

section MagmaTheorems

theorem magma_roundInv_round (g : Nat → Nat → Nat) (v : Nat × Nat) (k : Nat) :
    Magma.roundInv g (Magma.round g v k) k = v := by
  cases v
  simp [Magma.round, Magma.roundInv, Nat.xor_cancel_right]

theorem magma_round_roundInv (g : Nat → Nat → Nat) (v : Nat × Nat) (k : Nat) :
    Magma.round g (Magma.roundInv g v k) k = v := by
  cases v
  simp [Magma.round, Magma.roundInv, Nat.xor_cancel_right]

theorem magma_foldl_roundInv_reverse (g : Nat → Nat → Nat) (ks : List Nat)
    (v : Nat × Nat) :
    ks.reverse.foldl (Magma.roundInv g) (ks.foldl (Magma.round g) v) = v := by
  induction ks generalizing v with
  | nil => rfl
  | cons k ks ih =>
    simp only [List.reverse_cons, List.foldl_cons, List.foldl_append,
      List.foldl_nil, ih, magma_roundInv_round]

theorem magma_foldl_round_reverse (g : Nat → Nat → Nat) (ks : List Nat)
    (v : Nat × Nat) :
    ks.reverse.foldl (Magma.round g) (ks.foldl (Magma.roundInv g) v) = v := by
  induction ks generalizing v with
  | nil => rfl
  | cons k ks ih =>
    simp only [List.reverse_cons, List.foldl_cons, List.foldl_append,
      List.foldl_nil, ih, magma_round_roundInv]

theorem magma_foldl_round_swapPair (g : Nat → Nat → Nat) (ks : List Nat)
    (v : Nat × Nat) :
    ks.foldl (Magma.round g) (Magma.swapPair v) =
      Magma.swapPair (ks.foldl (Magma.roundInv g) v) := by
  induction ks generalizing v with
  | nil => rfl
  | cons k ks ih =>
    have h : Magma.round g (Magma.swapPair v) k =
        Magma.swapPair (Magma.roundInv g v k) := by
      cases v; rfl
    simp only [List.foldl_cons, h, ih]

theorem magma_to_u32_to_be_bytes (n : Nat) (h : n < 4294967296) :
    Magma.to_u32 (Magma.to_be_bytes n) = n := by
  simp only [Magma.to_u32, Magma.to_be_bytes]
  omega

theorem magma_to_be_bytes_to_u32 (a b c d : Nat) (ha : a < 256) (hb : b < 256)
    (hc : c < 256) (hd : d < 256) :
    Magma.to_be_bytes (Magma.to_u32 [a, b, c, d]) = [a, b, c, d] := by
  simp only [Magma.to_u32, Magma.to_be_bytes, List.cons.injEq, and_true]
  omega

theorem magma_to_u32_lt (a b c d : Nat) (ha : a < 256) (hb : b < 256)
    (hc : c < 256) (hd : d < 256) :
    Magma.to_u32 [a, b, c, d] < 4294967296 := by
  simp only [Magma.to_u32]
  omega

theorem magma_foldl_round_lt (g : Nat → Nat → Nat)
    (hg : ∀ x k, g x k < 4294967296) (ks : List Nat) (v : Nat × Nat)
    (h1 : v.1 < 4294967296) (h2 : v.2 < 4294967296) :
    (ks.foldl (Magma.round g) v).1 < 4294967296 ∧
      (ks.foldl (Magma.round g) v).2 < 4294967296 := by
  induction ks generalizing v with
  | nil => exact ⟨h1, h2⟩
  | cons k ks ih =>
    refine ih (Magma.round g v k) h2 ?_
    have hpow : (4294967296 : Nat) = 2 ^ 32 := by norm_num
    rw [hpow] at h1 ⊢
    exact Nat.xor_lt_two_pow h1 (hpow ▸ hg _ _)

theorem magma_fromBlock_pack (a b : Nat) (ha : a < 4294967296)
    (hb : b < 4294967296) :
    Magma.fromBlock (Magma.to_be_bytes a ++ Magma.to_be_bytes b) = (a, b) := by
  simp only [Magma.to_be_bytes, List.cons_append, List.nil_append,
    Magma.fromBlock, Magma.to_u32, Prod.mk.injEq]
  omega

theorem magma_fromBlock_cons (b0 b1 b2 b3 b4 b5 b6 b7 : Nat) :
    Magma.fromBlock [b0, b1, b2, b3, b4, b5, b6, b7] =
      (Magma.to_u32 [b0, b1, b2, b3], Magma.to_u32 [b4, b5, b6, b7]) := rfl

theorem magma_foldl_round_swap2 (g : Nat → Nat → Nat) (ks : List Nat)
    (v : Nat × Nat) :
    ks.foldl (Magma.round g) (v.2, v.1) =
      Magma.swapPair (ks.foldl (Magma.roundInv g) v) :=
  magma_foldl_round_swapPair g ks v

/-- C10.  For the Gost89/Magma cipher, decryption is a two-sided inverse
of encryption: for every round function `g` (the cipher is generic over
the S-box, and `g` returns a 32-bit word), every 32-byte key and every
8-byte block, `decrypt (encrypt b) = b` and `encrypt (decrypt b) = b`. -/
theorem gost89_decrypt_encrypt_inverse
    (g : Nat → Nat → Nat) (hg : ∀ x k, g x k < 4294967296)
    (key : List Nat) (hkey : key.length = 32)
    (b0 b1 b2 b3 b4 b5 b6 b7 : Nat)
    (h0 : b0 < 256) (h1 : b1 < 256) (h2 : b2 < 256) (h3 : b3 < 256)
    (h4 : b4 < 256) (h5 : b5 < 256) (h6 : b6 < 256) (h7 : b7 < 256) :
    Magma.decrypt_block_inout g (Magma.keyWords key)
      (Magma.encrypt_block_inout g (Magma.keyWords key)
        [b0, b1, b2, b3, b4, b5, b6, b7]) =
      [b0, b1, b2, b3, b4, b5, b6, b7] ∧
    Magma.encrypt_block_inout g (Magma.keyWords key)
      (Magma.decrypt_block_inout g (Magma.keyWords key)
        [b0, b1, b2, b3, b4, b5, b6, b7]) =
      [b0, b1, b2, b3, b4, b5, b6, b7] := by
  have hu1 := magma_to_u32_lt b0 b1 b2 b3 h0 h1 h2 h3
  have hu2 := magma_to_u32_lt b4 b5 b6 b7 h4 h5 h6 h7
  set kw := Magma.keyWords key with hkw
  set u : Nat × Nat :=
    (Magma.to_u32 [b0, b1, b2, b3], Magma.to_u32 [b4, b5, b6, b7]) with hu
  have hE := magma_foldl_round_lt g hg ((kw ++ kw ++ kw) ++ kw.reverse) u hu1 hu2
  have hD := magma_foldl_round_lt g hg
    (kw ++ (kw.reverse ++ kw.reverse ++ kw.reverse)) u hu1 hu2
  have hrevE : ((kw ++ kw ++ kw) ++ kw.reverse).reverse =
      kw ++ (kw.reverse ++ kw.reverse ++ kw.reverse) := by
    simp [List.reverse_append, List.append_assoc]
  have hrevD : (kw ++ (kw.reverse ++ kw.reverse ++ kw.reverse)).reverse =
      (kw ++ kw ++ kw) ++ kw.reverse := by
    simp [List.reverse_append, List.append_assoc]
  constructor
  · simp only [Magma.encrypt_block_inout, Magma.decrypt_block_inout,
      magma_fromBlock_cons, ← hu]
    rw [magma_fromBlock_pack _ _ hE.2 hE.1, magma_foldl_round_swap2,
      ← hrevE, magma_foldl_roundInv_reverse]
    simp only [Magma.swapPair, hu]
    rw [magma_to_be_bytes_to_u32 _ _ _ _ h0 h1 h2 h3,
      magma_to_be_bytes_to_u32 _ _ _ _ h4 h5 h6 h7]
    rfl
  · simp only [Magma.encrypt_block_inout, Magma.decrypt_block_inout,
      magma_fromBlock_cons, ← hu]
    rw [magma_fromBlock_pack _ _ hD.2 hD.1, magma_foldl_round_swap2,
      ← hrevD, magma_foldl_roundInv_reverse]
    simp only [Magma.swapPair, hu]
    rw [magma_to_be_bytes_to_u32 _ _ _ _ h0 h1 h2 h3,
      magma_to_be_bytes_to_u32 _ _ _ _ h4 h5 h6 h7]
    rfl

/-- Witness for C10, at the round function `(x + k) % 2^32`, the key
`0, 1, ..., 31` and the block `1, ..., 8`. -/
theorem gost89_decrypt_encrypt_inverse_witness :
    Magma.decrypt_block_inout (fun x k => (x + k) % 4294967296)
      (Magma.keyWords (List.range 32))
      (Magma.encrypt_block_inout (fun x k => (x + k) % 4294967296)
        (Magma.keyWords (List.range 32)) [1, 2, 3, 4, 5, 6, 7, 8]) =
      [1, 2, 3, 4, 5, 6, 7, 8] :=
  (gost89_decrypt_encrypt_inverse (fun x k => (x + k) % 4294967296)
    (fun x k => Nat.mod_lt _ (by norm_num)) (List.range 32) (by simp)
    1 2 3 4 5 6 7 8 (by norm_num) (by norm_num) (by norm_num) (by norm_num)
    (by norm_num) (by norm_num) (by norm_num) (by norm_num)).1

end MagmaTheorems

section AesTheorems

/-- `SubBytes` and `ShiftRows` commute: the substitution is byte-wise
and the shift is a byte permutation.  This is why the AESNI round order
(`ShiftRows` before `SubBytes`) computes the FIPS-197 round. -/
theorem aes_sub_shift_comm (s : Nat → Nat) (a : Aes.B16) :
    Aes.subBytes s (Aes.shiftRows a) = Aes.shiftRows (Aes.subBytes s a) := rfl

/-- One AES-NI key-assist round equals the FIPS-197 AES-128 expansion
step producing the next four words. -/
theorem ni_expand_round128_eq (s : Nat → Nat) (prev : Aes.B16) (rcon : Nat) :
    NiAes128.expand_round s prev rcon = SoftAes.next_key128 s prev rcon := by
  cases prev
  simp only [NiAes128.expand_round, SoftAes.next_key128, SoftAes.next_key_with,
    Aes.aeskeygenassist, Aes.bcast3, Aes.slli4, Aes.mk4, Aes.xor16, Aes.xorW,
    Aes.subWord, Aes.rotWord, Aes.xorRcon, Aes.B16.w0, Aes.B16.w1, Aes.B16.w2,
    Aes.B16.w3, Aes.zW]
  congr 1 <;> simp [Nat.xor_assoc]

/-- Single-block AES-128 encryption through the AES-NI pipeline (NI key
expansion, `aesenc` rounds) computes the reference FIPS-197 AES-128
encryption for every key and block. -/
theorem ni128_encrypt_eq (mc imc : Aes.B16 → Aes.B16) (s : Nat → Nat)
    (key b : Aes.B16) :
    NiAes128.encrypt1 mc s (NiAes128.expand imc s key).1 b =
      SoftAes.aes128_encrypt mc s key b := by
  simp only [NiAes128.expand, NiAes128.encrypt1, ni_expand_round128_eq,
    SoftAes.aes128_encrypt, SoftAes.aes128_key_schedule,
    SoftAes.aes128_encrypt_with, SoftAes.fips_round, Aes.aesenc,
    Aes.aesenclast, aes_sub_shift_comm]

/-- Single-block AES-128 decryption through the AES-NI pipeline (the
equivalent inverse cipher: `aesimc`-transformed round keys and `aesdec`
rounds) computes the reference FIPS-197 InvCipher, for any linear
InvMixColumns. -/
theorem ni128_decrypt_eq (imc : Aes.B16 → Aes.B16) (is s : Nat → Nat)
    (hlin : ∀ a b, imc (Aes.xor16 a b) = Aes.xor16 (imc a) (imc b))
    (key b : Aes.B16) :
    NiAes128.decrypt1 imc is (NiAes128.expand imc s key).2 b =
      SoftAes.aes128_decrypt imc is s key b := by
  simp only [NiAes128.expand, NiAes128.decrypt1, ni_expand_round128_eq,
    SoftAes.aes128_decrypt, SoftAes.aes128_key_schedule,
    SoftAes.aes128_decrypt_with, SoftAes.fips_inv_round, Aes.aesdec,
    Aes.aesdeclast, ← hlin]

/-- The even half of the AES-NI 256 assist round equals the FIPS-197
AES-256 even expansion step. -/
theorem ni_expand_round256a_eq (s : Nat → Nat) (t1 t3 : Aes.B16)
    (rcon : Nat) :
    NiAes256.expand_round_a s t1 t3 rcon =
      SoftAes.next_key256_even s t1 t3 rcon := by
  cases t1
  cases t3
  simp only [NiAes256.expand_round_a, SoftAes.next_key256_even,
    SoftAes.next_key_with, Aes.aeskeygenassist, Aes.bcast3, Aes.slli4,
    Aes.mk4, Aes.xor16, Aes.xorW, Aes.subWord, Aes.rotWord, Aes.xorRcon,
    Aes.B16.w0, Aes.B16.w1, Aes.B16.w2, Aes.B16.w3, Aes.zW]
  congr 1 <;> simp [Nat.xor_assoc]

/-- The odd half of the AES-NI 256 assist round equals the FIPS-197
AES-256 odd expansion step. -/
theorem ni_expand_round256b_eq (s : Nat → Nat) (t1 t3 : Aes.B16) :
    NiAes256.expand_round_b s t1 t3 =
      SoftAes.next_key256_odd s t1 t3 := by
  cases t1
  cases t3
  simp only [NiAes256.expand_round_b, SoftAes.next_key256_odd,
    SoftAes.next_key_with, Aes.aeskeygenassist, Aes.bcast2, Aes.slli4,
    Aes.mk4, Aes.xor16, Aes.xorW, Aes.subWord, Aes.rotWord, Aes.xorRcon,
    Aes.B16.w0, Aes.B16.w1, Aes.B16.w2, Aes.B16.w3, Aes.zW]
  congr 1 <;> simp [Nat.xor_assoc]

/-- Single-block AES-256 encryption through the AES-NI pipeline computes
the reference FIPS-197 AES-256 encryption for every key and block. -/
theorem ni256_encrypt_eq (mc imc : Aes.B16 → Aes.B16) (s : Nat → Nat)
    (k0 k1 b : Aes.B16) :
    NiAes256.encrypt1 mc s (NiAes256.expand imc s k0 k1).1 b =
      SoftAes.aes256_encrypt mc s k0 k1 b := by
  simp only [NiAes256.expand, NiAes256.encrypt1, ni_expand_round256a_eq,
    ni_expand_round256b_eq, SoftAes.aes256_encrypt,
    SoftAes.aes256_key_schedule, SoftAes.aes256_encrypt_with,
    SoftAes.fips_round, Aes.aesenc, Aes.aesenclast, aes_sub_shift_comm]

/-- Single-block AES-256 decryption through the AES-NI pipeline computes
the reference FIPS-197 AES-256 InvCipher, for any linear
InvMixColumns. -/
theorem ni256_decrypt_eq (imc : Aes.B16 → Aes.B16) (is s : Nat → Nat)
    (hlin : ∀ a b, imc (Aes.xor16 a b) = Aes.xor16 (imc a) (imc b))
    (k0 k1 b : Aes.B16) :
    NiAes256.decrypt1 imc is (NiAes256.expand imc s k0 k1).2 b =
      SoftAes.aes256_decrypt imc is s k0 k1 b := by
  simp only [NiAes256.expand, NiAes256.decrypt1, ni_expand_round256a_eq,
    ni_expand_round256b_eq, SoftAes.aes256_decrypt,
    SoftAes.aes256_key_schedule, SoftAes.aes256_decrypt_with,
    SoftAes.fips_inv_round, Aes.aesdec, Aes.aesdeclast, ← hlin]

theorem aes_w0_mk4 (x y u v : Aes.W4) : (Aes.mk4 x y u v).w0 = x := rfl

theorem aes_w1_mk4 (x y u v : Aes.W4) : (Aes.mk4 x y u v).w1 = y := rfl

theorem aes_w2_mk4 (x y u v : Aes.W4) : (Aes.mk4 x y u v).w2 = u := rfl

theorem aes_w3_mk4 (x y u v : Aes.W4) : (Aes.mk4 x y u v).w3 = v := rfl

/-- One AES-NI 192 assist round: the first output register carries the
next four words of the FIPS-197 AES-192 expansion; the low half of the
second carries the two words after them (its high half is a leftover of
the cascade, never consumed). -/
theorem ni_expand_round192_eq (s : Nat → Nat) (t1 t3 : Aes.B16)
    (rcon : Nat) :
    NiAes192.expand_round s t1 t3 rcon =
      ((SoftAes.next6 s t1 t3.w0 t3.w1 rcon).1,
       Aes.mk4 (SoftAes.next6 s t1 t3.w0 t3.w1 rcon).2.1
         (SoftAes.next6 s t1 t3.w0 t3.w1 rcon).2.2
         (Aes.xorW (Aes.xorW t3.w2 t3.w1)
           ((SoftAes.next6 s t1 t3.w0 t3.w1 rcon).1).w3)
         (Aes.xorW (Aes.xorW t3.w3 t3.w2)
           ((SoftAes.next6 s t1 t3.w0 t3.w1 rcon).1).w3)) := by
  cases t1
  cases t3
  simp only [NiAes192.expand_round, SoftAes.next6, SoftAes.next_key_with,
    Aes.aeskeygenassist, Aes.bcast1, Aes.bcast3, Aes.slli4, Aes.mk4,
    Aes.xor16, Aes.xorW, Aes.subWord, Aes.rotWord, Aes.xorRcon,
    Aes.B16.w0, Aes.B16.w1, Aes.B16.w2, Aes.B16.w3, Aes.zW]
  simp [Nat.xor_assoc]

/-- Single-block AES-192 encryption through the AES-NI pipeline computes
the reference FIPS-197 AES-192 encryption for every key and block. -/
theorem ni192_encrypt_eq (mc imc : Aes.B16 → Aes.B16) (s : Nat → Nat)
    (k0 : Aes.B16) (w4 w5 : Aes.W4) (b : Aes.B16) :
    NiAes192.encrypt1 mc s (NiAes192.expand imc s k0 w4 w5).1 b =
      SoftAes.aes192_encrypt mc s k0 w4 w5 b := by
  simp only [NiAes192.expand, NiAes192.encrypt1, ni_expand_round192_eq,
    Aes.shufpd0, Aes.shufpd1, aes_w0_mk4, aes_w1_mk4, aes_w2_mk4,
    aes_w3_mk4, SoftAes.aes192_encrypt, SoftAes.aes192_key_schedule,
    SoftAes.aes192_encrypt_with, SoftAes.fips_round, Aes.aesenc,
    Aes.aesenclast, aes_sub_shift_comm]

/-- Single-block AES-192 decryption through the AES-NI pipeline computes
the reference FIPS-197 AES-192 InvCipher, for any linear
InvMixColumns. -/
theorem ni192_decrypt_eq (imc : Aes.B16 → Aes.B16) (is s : Nat → Nat)
    (hlin : ∀ a b, imc (Aes.xor16 a b) = Aes.xor16 (imc a) (imc b))
    (k0 : Aes.B16) (w4 w5 : Aes.W4) (b : Aes.B16) :
    NiAes192.decrypt1 imc is (NiAes192.expand imc s k0 w4 w5).2 b =
      SoftAes.aes192_decrypt imc is s k0 w4 w5 b := by
  simp only [NiAes192.expand, NiAes192.decrypt1, ni_expand_round192_eq,
    Aes.shufpd0, Aes.shufpd1, aes_w0_mk4, aes_w1_mk4, aes_w2_mk4,
    aes_w3_mk4, SoftAes.aes192_decrypt, SoftAes.aes192_key_schedule,
    SoftAes.aes192_decrypt_with, SoftAes.fips_inv_round, Aes.aesdec,
    Aes.aesdeclast, ← hlin]

/-- Joining the chunked buffer after mapping a function over each chunk
is mapping the function over the buffer: batch-wise processing with a
per-block batch routine equals block-wise processing, for every batch
width and every buffer length. -/
theorem list_join_cons {α : Type} (a : List α) (l : List (List α)) :
    (a :: l).join = a ++ l.join := rfl

theorem aes_blocks_with_pre_eq_map (f : Aes.B16 → Aes.B16) (w : Nat)
    (bs : List Aes.B16) :
    aes_blocks_with_pre f w bs = bs.map f := by
  unfold aes_blocks_with_pre
  have H : ∀ (n : Nat) (l : List Aes.B16), l.length ≤ n →
      ((chunked w l).map (fun ch => ch.map f)).join = l.map f := by
    intro n
    induction n with
    | zero =>
      intro l hl
      have : l = [] := List.eq_nil_of_length_eq_zero (Nat.le_zero.mp hl)
      subst this
      rw [chunked]
      rfl
    | succ n ih =>
      intro l hl
      cases l with
      | nil => rw [chunked]; rfl
      | cons x xs =>
        rw [chunked, List.map_cons, list_join_cons,
          ih (xs.drop (w - 1)) (by simp at hl ⊢; omega)]
        conv_rhs =>
          rw [show x :: xs = (x :: xs.take (w - 1)) ++ xs.drop (w - 1) by
            rw [List.cons_append, List.take_append_drop]]
        rw [List.map_append]
  exact H bs.length bs le_rfl

/-- C4.  Dispatch equivalence.  For every byte substitution, MixColumns
transform and linear InvMixColumns (the components shared by both
implementations), every probe outcome, every key and every block, the
dispatching AES cipher of `autodetect.rs` — holding the AES-NI pipeline
when the token is set and the (spec-modelled) fixsliced soft
implementation otherwise — produces the same ciphertext on encryption
and the same plaintext on decryption, namely the reference FIPS-197
result, for AES-128, AES-192 and AES-256; so its output is independent
of the selected variant.  Batch-wise, the multi-block walk of either
implementation equals the block-by-block map of the same reference
function, for every batch width. -/
theorem aes_dispatch_equivalence (s is : Nat → Nat)
    (mc imc : Aes.B16 → Aes.B16)
    (hlin : ∀ a b, imc (Aes.xor16 a b) = Aes.xor16 (imc a) (imc b)) :
    (∀ (p : Bool) (key b : Aes.B16),
      Autodetect.encrypt_block_inout
        (fun ks => NiAes128.encrypt1 mc s ks.1)
        (fun ks => SoftAes.aes128_encrypt_with mc s ks)
        (Autodetect.new (NiAes128.expand imc s)
          (SoftAes.aes128_key_schedule s) p key) b =
        some (SoftAes.aes128_encrypt mc s key b)) ∧
    (∀ (p : Bool) (key b : Aes.B16),
      Autodetect.decrypt_block_inout
        (fun ks => NiAes128.decrypt1 imc is ks.2)
        (fun ks => SoftAes.aes128_decrypt_with imc is ks)
        (Autodetect.new (NiAes128.expand imc s)
          (SoftAes.aes128_key_schedule s) p key) b =
        some (SoftAes.aes128_decrypt imc is s key b)) ∧
    (∀ (p : Bool) (k0 : Aes.B16) (w4 w5 : Aes.W4) (b : Aes.B16),
      Autodetect.encrypt_block_inout
        (fun ks => NiAes192.encrypt1 mc s ks.1)
        (fun ks => SoftAes.aes192_encrypt_with mc s ks)
        (Autodetect.new
          (fun k : Aes.B16 × Aes.W4 × Aes.W4 =>
            NiAes192.expand imc s k.1 k.2.1 k.2.2)
          (fun k : Aes.B16 × Aes.W4 × Aes.W4 =>
            SoftAes.aes192_key_schedule s k.1 k.2.1 k.2.2)
          p (k0, w4, w5)) b =
        some (SoftAes.aes192_encrypt mc s k0 w4 w5 b)) ∧
    (∀ (p : Bool) (k0 : Aes.B16) (w4 w5 : Aes.W4) (b : Aes.B16),
      Autodetect.decrypt_block_inout
        (fun ks => NiAes192.decrypt1 imc is ks.2)
        (fun ks => SoftAes.aes192_decrypt_with imc is ks)
        (Autodetect.new
          (fun k : Aes.B16 × Aes.W4 × Aes.W4 =>
            NiAes192.expand imc s k.1 k.2.1 k.2.2)
          (fun k : Aes.B16 × Aes.W4 × Aes.W4 =>
            SoftAes.aes192_key_schedule s k.1 k.2.1 k.2.2)
          p (k0, w4, w5)) b =
        some (SoftAes.aes192_decrypt imc is s k0 w4 w5 b)) ∧
    (∀ (p : Bool) (k0 k1 b : Aes.B16),
      Autodetect.encrypt_block_inout
        (fun ks => NiAes256.encrypt1 mc s ks.1)
        (fun ks => SoftAes.aes256_encrypt_with mc s ks)
        (Autodetect.new
          (fun k : Aes.B16 × Aes.B16 => NiAes256.expand imc s k.1 k.2)
          (fun k : Aes.B16 × Aes.B16 =>
            SoftAes.aes256_key_schedule s k.1 k.2)
          p (k0, k1)) b =
        some (SoftAes.aes256_encrypt mc s k0 k1 b)) ∧
    (∀ (p : Bool) (k0 k1 b : Aes.B16),
      Autodetect.decrypt_block_inout
        (fun ks => NiAes256.decrypt1 imc is ks.2)
        (fun ks => SoftAes.aes256_decrypt_with imc is ks)
        (Autodetect.new
          (fun k : Aes.B16 × Aes.B16 => NiAes256.expand imc s k.1 k.2)
          (fun k : Aes.B16 × Aes.B16 =>
            SoftAes.aes256_key_schedule s k.1 k.2)
          p (k0, k1)) b =
        some (SoftAes.aes256_decrypt imc is s k0 k1 b)) ∧
    (∀ (w : Nat) (key : Aes.B16) (bs : List Aes.B16),
      aes_blocks_with_pre
        (NiAes128.encrypt1 mc s (NiAes128.expand imc s key).1) w bs =
        bs.map (SoftAes.aes128_encrypt mc s key)) ∧
    (∀ (w : Nat) (key : Aes.B16) (bs : List Aes.B16),
      aes_blocks_with_pre
        (NiAes128.decrypt1 imc is (NiAes128.expand imc s key).2) w bs =
        bs.map (SoftAes.aes128_decrypt imc is s key)) ∧
    (∀ (w : Nat) (k0 : Aes.B16) (w4 w5 : Aes.W4) (bs : List Aes.B16),
      aes_blocks_with_pre
        (NiAes192.encrypt1 mc s (NiAes192.expand imc s k0 w4 w5).1) w bs =
        bs.map (SoftAes.aes192_encrypt mc s k0 w4 w5)) ∧
    (∀ (w : Nat) (k0 : Aes.B16) (w4 w5 : Aes.W4) (bs : List Aes.B16),
      aes_blocks_with_pre
        (NiAes192.decrypt1 imc is (NiAes192.expand imc s k0 w4 w5).2) w bs =
        bs.map (SoftAes.aes192_decrypt imc is s k0 w4 w5)) ∧
    (∀ (w : Nat) (k0 k1 : Aes.B16) (bs : List Aes.B16),
      aes_blocks_with_pre
        (NiAes256.encrypt1 mc s (NiAes256.expand imc s k0 k1).1) w bs =
        bs.map (SoftAes.aes256_encrypt mc s k0 k1)) ∧
    (∀ (w : Nat) (k0 k1 : Aes.B16) (bs : List Aes.B16),
      aes_blocks_with_pre
        (NiAes256.decrypt1 imc is (NiAes256.expand imc s k0 k1).2) w bs =
        bs.map (SoftAes.aes256_decrypt imc is s k0 k1)) := by
  refine ⟨?_, ?_, ?_, ?_, ?_, ?_, ?_, ?_, ?_, ?_, ?_, ?_⟩
  · intro p key b
    cases p
    · simp [Autodetect.new, Autodetect.encrypt_block_inout,
        SoftAes.aes128_encrypt]
    · simp [Autodetect.new, Autodetect.encrypt_block_inout, ni128_encrypt_eq]
  · intro p key b
    cases p
    · simp [Autodetect.new, Autodetect.decrypt_block_inout,
        SoftAes.aes128_decrypt]
    · simp [Autodetect.new, Autodetect.decrypt_block_inout,
        ni128_decrypt_eq imc is s hlin]
  · intro p k0 w4 w5 b
    cases p
    · simp [Autodetect.new, Autodetect.encrypt_block_inout,
        SoftAes.aes192_encrypt]
    · simp [Autodetect.new, Autodetect.encrypt_block_inout, ni192_encrypt_eq]
  · intro p k0 w4 w5 b
    cases p
    · simp [Autodetect.new, Autodetect.decrypt_block_inout,
        SoftAes.aes192_decrypt]
    · simp [Autodetect.new, Autodetect.decrypt_block_inout,
        ni192_decrypt_eq imc is s hlin]
  · intro p k0 k1 b
    cases p
    · simp [Autodetect.new, Autodetect.encrypt_block_inout,
        SoftAes.aes256_encrypt]
    · simp [Autodetect.new, Autodetect.encrypt_block_inout, ni256_encrypt_eq]
  · intro p k0 k1 b
    cases p
    · simp [Autodetect.new, Autodetect.decrypt_block_inout,
        SoftAes.aes256_decrypt]
    · simp [Autodetect.new, Autodetect.decrypt_block_inout,
        ni256_decrypt_eq imc is s hlin]
  · intro w key bs
    rw [aes_blocks_with_pre_eq_map]
    simp [ni128_encrypt_eq]
  · intro w key bs
    rw [aes_blocks_with_pre_eq_map]
    simp [ni128_decrypt_eq imc is s hlin]
  · intro w k0 w4 w5 bs
    rw [aes_blocks_with_pre_eq_map]
    simp [ni192_encrypt_eq]
  · intro w k0 w4 w5 bs
    rw [aes_blocks_with_pre_eq_map]
    simp [ni192_decrypt_eq imc is s hlin]
  · intro w k0 k1 bs
    rw [aes_blocks_with_pre_eq_map]
    simp [ni256_encrypt_eq]
  · intro w k0 k1 bs
    rw [aes_blocks_with_pre_eq_map]
    simp [ni256_decrypt_eq imc is s hlin]

/-- Witness for C4: identity components (which satisfy the linearity
hypothesis), the hardware variant selected, the all-zero AES-128 key and
block. -/
theorem aes_dispatch_equivalence_witness :
    Autodetect.encrypt_block_inout
      (fun ks => NiAes128.encrypt1 id id ks.1)
      (fun ks => SoftAes.aes128_encrypt_with id id ks)
      (Autodetect.new (NiAes128.expand id id)
        (SoftAes.aes128_key_schedule id) true Aes.z16) Aes.z16 =
      some (SoftAes.aes128_encrypt id id Aes.z16 Aes.z16) :=
  (aes_dispatch_equivalence id id id id (fun a b => rfl)).1 true Aes.z16
    Aes.z16

end AesTheorems
